import Mathlib

/-!
Batch command runner (gouldkj_homework2.cpp)

A shallow embedding of the pure and the scheduling parts of the program:

* `splitString`   — the tokenizer, `while (is >> std::quoted(word))`;
* `breakDownURL`  — the URL decomposer, with `size_t` arithmetic modulo `2^64`
  and `std::string::substr` raising `std::out_of_range`;
* `processCommands`, `processData` — the two scheduling loops, as state passing
  over a record of everything the loop can observe or cause;
* `processURL`, `mainBody`, `mainLoop` — the network source and the session driver,
  which stop with a `Fault` on an out-of-range index or an uncaught exception.

A `std::string` is a list of characters, a `StrVec` a list of those.
-/

namespace Homework2

/-- A `std::string`. -/
abbrev Str := List Char

/-- The alias `StrVec = std::vector<std::string>`. -/
abbrev StrVec := List Str

/-! ## Tokenizer -/

/-- The whitespace class of the classic locale (`std::isspace`): space, `\t`, `\n`,
vertical tab, form feed and `\r`. -/
def isspace (c : Char) : Bool :=
  c == ' ' || c == '\t' || c == '\n' || c == '\x0b' || c == '\x0c' || c == '\r'

/-- The sentry of a formatted extraction with `skipws` set: leading whitespace is
consumed. -/
def skipws (input : Str) : Str :=
  input.dropWhile isspace

/-- The body of `operator>>` for `std::quoted` after the opening delimiter, run with
`skipws` cleared: characters are appended to the word until the delimiter `"`; the
escape character `\` is dropped and the character after it appended unexamined.
`none` is the stream left failed because the input ended first; otherwise the word
and the input that remains after the closing delimiter. -/
def readQuoted : Str → Option (Str × Str)
  | [] => none
  | c :: cs =>
    if c = '\\' then
      match cs with
      | [] => none
      | e :: rest => (readQuoted rest).map fun wr => (e :: wr.1, wr.2)
    else if c = '"' then some ([], cs)
    else (readQuoted cs).map fun wr => (c :: wr.1, wr.2)

/-- One evaluation of `is >> std::quoted(word)`. The first character after
whitespace is read; at the end of input the extraction fails (`none`). A character
other than `"` is put back and `is >> word` reads up to the next whitespace or the
end of input; a `"` starts `readQuoted`. The result is the word and the remaining
input. An input that is exhausted makes the next extraction fail, whether or not
`eofbit` was already set, so the remaining input is the whole stream state. -/
def extractQuoted (input : Str) : Option (Str × Str) :=
  match skipws input with
  | [] => none
  | c :: cs =>
    if c = '"' then readQuoted cs
    else some ((c :: cs).takeWhile (fun x => !isspace x),
               (c :: cs).dropWhile (fun x => !isspace x))

/-- The loop `while (is >> std::quoted(word)) argList.push_back(word);`, with a bound
on the number of iterations. -/
def splitLoop : Nat → Str → StrVec
  | 0, _ => []
  | fuel + 1, input =>
    match extractQuoted input with
    | none => []
    | some (word, rest) => word :: splitLoop fuel rest

/-- `splitString(line)`. Every successful extraction consumes a character, so
`line.length + 1` iterations always reach the failing extraction that ends the loop
(`splitLoop_fuel`). -/
def splitString (line : Str) : StrVec :=
  splitLoop (line.length + 1) line

/-- The whitespace split, as the specification words it: the maximal runs of
non-whitespace characters, left to right, none of them empty. -/
def whitespaceSplit (line : Str) : StrVec :=
  (line.splitOnP isspace).filter fun t => !t.isEmpty

/-- The content of a quoted token read back: every escaping backslash removed, the
character after it kept. `none` when the content holds an unescaped `"` or ends in
an escaping backslash, that is, when the quote after it is not the first unescaped
one. -/
def unescape : Str → Option Str
  | [] => some []
  | c :: cs =>
    if c = '\\' then
      match cs with
      | [] => none
      | e :: rest => (unescape rest).map fun u => e :: u
    else if c = '"' then none
    else (unescape cs).map fun u => c :: u

/-! ## URL decomposer -/

/-- The width of `size_t`: index arithmetic is modulo `2^64`. -/
def sizeMod : Nat := 2 ^ 64

/-- The constant `std::string::npos`, the largest `size_t`. -/
def npos : Nat := sizeMod - 1

/-- Subtraction of two `size_t` values, wrapping modulo `2^64`. -/
def subSize (a b : Nat) : Nat :=
  (a % sizeMod + (sizeMod - b % sizeMod)) % sizeMod

/-- Addition of two `size_t` values, wrapping modulo `2^64`. -/
def addSize (a b : Nat) : Nat :=
  (a + b) % sizeMod

/-- The search of `s.find(pat)` over the suffix `s` that starts at index `i`: the
index of the first occurrence of `pat`, or `npos`. -/
def findFrom (pat : Str) : Str → Nat → Nat
  | [], i => if pat = [] then i else npos
  | c :: cs, i => if pat.isPrefixOf (c :: cs) then i else findFrom pat cs (i + 1)

/-- `s.find(pat)`, the search starting at index 0. -/
def find (s pat : Str) : Nat :=
  findFrom pat s 0

/-- `s.find(c, pos)`: the index of the first `c` at index `pos` or later, `npos`
when there is none (in particular when `pos` is at or past the end). -/
def findChar (s : Str) (c : Char) (pos : Nat) : Nat :=
  if (s.drop pos).contains c then pos + (s.drop pos).indexOf c else npos

/-- The exception `std::out_of_range`, the only one the decomposer can raise. -/
inductive Exception where
  | out_of_range
  deriving DecidableEq, Repr

/-- `s.substr(pos, n)`: raises `std::out_of_range` when `pos > s.size()`, otherwise
the characters from `pos`, at most `n` of them. -/
def substr (s : Str) (pos n : Nat) : Except Exception Str :=
  if pos > s.length then Except.error Exception.out_of_range
  else Except.ok ((s.drop pos).take n)

/-- The index `hostStart` of `breakDownURL`: `url.find("//") + 2` in `size_t`. -/
def hostStart (url : Str) : Nat :=
  addSize (find url "//".toList) 2

/-- The index `pathStart` of `breakDownURL`: `url.find('/', hostStart)`. -/
def pathStart (url : Str) : Nat :=
  findChar url '/' (hostStart url)

/-- The index `portPos` of `breakDownURL`: `url.find(':', hostStart)`. -/
def portPos (url : Str) : Nat :=
  findChar url ':' (hostStart url)

/-- `breakDownURL(url)`: the triple (hostname, port, path), or the exception a
`substr` call raises. The statements run in the order of the source: the hostname
is extracted first, then the path, then the port when a colon was found. -/
def breakDownURL (url : Str) : Except Exception (Str × Str × Str) :=
  let hostEnd := if portPos url = npos then pathStart url else portPos url
  match substr url (hostStart url) (subSize hostEnd (hostStart url)) with
  | Except.error e => Except.error e
  | Except.ok hostName =>
    match substr url (pathStart url) npos with
    | Except.error e => Except.error e
    | Except.ok path =>
      if portPos url ≠ npos then
        match substr url (addSize (portPos url) 1)
            (subSize (subSize (pathStart url) (portPos url)) 1) with
        | Except.error e => Except.error e
        | Except.ok port => Except.ok (hostName, port, path)
      else Except.ok (hostName, "80".toList, path)

/-! ## Scheduler -/

/-- Modelled from the spec: the class `ChildProcess` (`ChildProcess.h` is included
by the source, its definition is not part of it). A started child is identified by
the ordinal of the `forkNexec` call that started it; copying the object, as
`childList.push_back(child)` does, keeps the identity. -/
structure ChildProcess where
  /-- The number of children started before this one. -/
  id : Nat
  deriving DecidableEq, Repr

/-- What the scheduling code does that is visible from outside, one event per
output line and per call into `ChildProcess`. -/
inductive Event where
  /-- The line `Running: a1 a2 ...` that `runCommands` writes to `std::cout`. -/
  | running (argList : StrVec)
  /-- The call `child.forkNexec(argList)`. -/
  | forkNexec (argList : StrVec)
  /-- A call of `wait()` on a child. -/
  | wait (child : ChildProcess)
  /-- The line `Exit code: n` written to `std::cout`. -/
  | exitCode (code : Int)
  /-- The construction `boost::asio::ip::tcp::iostream data(host, port)`. -/
  | connect (host port : Str)
  /-- The bytes written to the connection. -/
  | send (bytes : Str)
  /-- The prompt `"> "` written to `std::cout`. -/
  | prompt
  deriving DecidableEq, Repr

/-- The surroundings of the program: the exit status `wait()` returns for each child
(by ordinal), and for each path the lines `std::getline` yields from an `ifstream`
opened on it (none when the file cannot be opened). -/
structure Env where
  /-- The value of `wait()` on the child with the given ordinal. -/
  exitStatus : Nat → Int
  /-- The lines of the file at a path, in order. -/
  readFile : Str → List Str

/-- The state that outlives a call: the events so far, oldest first, and the number
of children started. -/
structure World where
  /-- Events so far. -/
  trace : List Event
  /-- Children started so far. -/
  spawned : Nat
  deriving DecidableEq, Repr

/-- `runCommands(argList)`: writes the `Running:` line, starts a child on
`argList` and returns it. -/
def runCommands (argList : StrVec) (w : World) : ChildProcess × World :=
  (⟨w.spawned⟩,
   ⟨w.trace ++ [Event.running argList, Event.forkNexec argList], w.spawned + 1⟩)

/-- The statement `std::cout << "Exit code: " << child.wait() << std::endl;`. -/
def printExitCode (env : Env) (child : ChildProcess) (w : World) : World :=
  ⟨w.trace ++ [Event.wait child, Event.exitCode (env.exitStatus child.id)], w.spawned⟩

/-- The final loop `for (auto& a : childList)` of both scheduling functions. -/
def drainChildList (env : Env) (childList : List ChildProcess) (w : World) : World :=
  childList.foldl (fun acc a => printExitCode env a acc) w

/-- The `while` loop of `processCommands` over the lines `std::getline` yields, with
`mode` the string `argList[0]`: it ends at the end of the file or at a line equal to
`exit`, skips a line that is empty or starts with `#`, and otherwise tokenizes the
line, runs it and either prints the exit code at once (`SERIAL`) or appends the
child to `childList`. -/
def processCommandsLoop (env : Env) (mode : Str) :
    List Str → World → List ChildProcess → World × List ChildProcess
  | [], w, childList => (w, childList)
  | line :: rest, w, childList =>
    if line = "exit".toList then (w, childList)
    else if line.isEmpty || line.head? == some '#' then
      processCommandsLoop env mode rest w childList
    else
      let cmdList := splitString line
      let started := runCommands cmdList w
      if mode = "SERIAL".toList then
        processCommandsLoop env mode rest (printExitCode env started.1 started.2) childList
      else
        processCommandsLoop env mode rest started.2 (childList ++ [started.1])

/-- `processCommands(argList)`: the file named by `argList[1]` is read through the
loop and the pending children are drained. `none` is the undefined behaviour of
indexing a vector of fewer than two elements. -/
def processCommands (env : Env) (argList : StrVec) (w : World) : Option World :=
  match argList with
  | mode :: path :: _ =>
    let after := processCommandsLoop env mode (env.readFile path) w []
    some (drainChildList env after.2 after.1)
  | _ => none

/-- The header loop of `processData`: lines are read and dropped up to and including
the first one that is empty or equal to `"\r"`; the result is the lines left. -/
def skipHeaders : List Str → List Str
  | [] => []
  | hdr :: rest =>
    if !hdr.isEmpty && hdr ≠ "\r".toList then skipHeaders rest else rest

/-- The `while` loop of `processData`, with `sp` the mode string. -/
def processDataLoop (env : Env) (sp : Str) :
    List Str → World → List ChildProcess → World × List ChildProcess
  | [], w, childList => (w, childList)
  | line :: rest, w, childList =>
    if line = "exit".toList then (w, childList)
    else if line.isEmpty || line.head? == some '#' then
      processDataLoop env sp rest w childList
    else
      let cmdList := splitString line
      let started := runCommands cmdList w
      if sp = "SERIAL".toList then
        processDataLoop env sp rest (printExitCode env started.1 started.2) childList
      else
        processDataLoop env sp rest started.2 (childList ++ [started.1])

/-- `processData(sp, is, os)` on a stream `is` that yields the given lines. -/
def processData (env : Env) (sp : Str) (is : List Str) (w : World) : World :=
  let after := processDataLoop env sp (skipHeaders is) w []
  drainChildList env after.2 after.1

/-! ### Reading a trace -/

/-- The argument vectors handed to `forkNexec`, in order. -/
def spawnedVectors (trace : List Event) : List StrVec :=
  trace.filterMap fun e => match e with
    | Event.forkNexec a => some a
    | _ => none

/-- The argument vectors of the `Running:` lines, in order. -/
def runningLines (trace : List Event) : List StrVec :=
  trace.filterMap fun e => match e with
    | Event.running a => some a
    | _ => none

/-- The numbers of the `Exit code:` lines, in order. -/
def exitCodeLines (trace : List Event) : List Int :=
  trace.filterMap fun e => match e with
    | Event.exitCode n => some n
    | _ => none

/-- The children `wait()` was called on, in order. -/
def waitedChildren (trace : List Event) : List ChildProcess :=
  trace.filterMap fun e => match e with
    | Event.wait c => some c
    | _ => none

/-- The output lines of a trace, in order: the events that are not calls into
`ChildProcess`. -/
def printedLines (trace : List Event) : List Event :=
  trace.filter fun e => match e with
    | Event.running _ => true
    | Event.exitCode _ => true
    | _ => false

/-- The lines of a script that the specification says are executed: those before the
first line equal to `exit` that are not empty and do not start with `#`. -/
def commandLines (lines : List Str) : List Str :=
  (lines.takeWhile fun l => l ≠ "exit".toList).filter
    fun l => !(l.isEmpty || l.head? == some '#')

/-- The world before anything ran. -/
def World.start : World := ⟨[], 0⟩

/-- The events of command lines run one after the other with the exit code printed
after each, the first child having ordinal `k`. -/
def serialEvents (env : Env) : Nat → List Str → List Event
  | _, [] => []
  | k, l :: ls =>
    [Event.running (splitString l), Event.forkNexec (splitString l), Event.wait ⟨k⟩,
      Event.exitCode (env.exitStatus k)] ++ serialEvents env (k + 1) ls

/-- The events of command lines started one after the other without waiting. -/
def startEvents : List Str → List Event
  | [] => []
  | l :: ls =>
    [Event.running (splitString l), Event.forkNexec (splitString l)] ++ startEvents ls

/-- The events of waiting on the given children in order, the exit code of each
printed. -/
def waitEvents (env : Env) : List ChildProcess → List Event
  | [] => []
  | a :: rest => [Event.wait a, Event.exitCode (env.exitStatus a.id)] ++ waitEvents env rest

/-- The children with the `n` ordinals from `k` on, in order. -/
def childrenFrom (k n : Nat) : List ChildProcess :=
  (List.range' k n).map ChildProcess.mk

/-! ## Output text -/

/-- The characters `runCommands` writes before `std::endl`: `Running:` and then, for
each element of `argList`, a space and the element. -/
def runningText (argList : StrVec) : Str :=
  argList.foldl (fun out a => out ++ " ".toList ++ a) "Running:".toList

/-- The characters of `std::cout << "Exit code: " << n`, the number in decimal. -/
def exitCodeText (n : Int) : Str :=
  "Exit code: ".toList ++ (toString n).toList

/-- The text of an event that is an output line; `none` for a call into
`ChildProcess` or the network and for the prompt, which ends no line. -/
def Event.text : Event → Option Str
  | Event.running argList => some (runningText argList)
  | Event.exitCode n => some (exitCodeText n)
  | _ => none

/-- The texts of the output lines of a trace, in order. -/
def outputLines (trace : List Event) : List Str :=
  trace.filterMap Event.text

/-! ## Network source and session driver -/

/-- The network: the lines `std::getline` yields from a connection to a host and
port after the given bytes were written to it (none when the connection fails). -/
structure Net where
  /-- The response lines for a host, a port and a request. -/
  response : Str → Str → Str → List Str

/-- The ways the driver stops other than by leaving its loop. -/
inductive Fault where
  /-- An element of a `StrVec` was read at an index past its end (undefined
  behaviour of `operator[]`). -/
  | out_of_bounds
  /-- An exception left `main` uncaught. -/
  | uncaught (e : Exception)
  deriving DecidableEq, Repr

/-- The request `processURL` writes, in the pieces of the source. -/
def httpRequest (host path : Str) : Str :=
  "GET ".toList ++ path ++ " HTTP/1.1\r\n".toList ++
    "Host: ".toList ++ host ++ "\r\n".toList ++
    "Connection: Close\r\n\r\n".toList

/-- `processURL(argList)`: `argList[0]` is the mode and `argList[1]` the URL; the URL
is decomposed (an exception of `breakDownURL` is not caught), a connection is opened
to host and port, the request written and the response handed to `processData`. -/
def processURL (env : Env) (net : Net) (argList : StrVec) (w : World) : Except Fault World :=
  match argList with
  | sp :: url :: _ =>
    match breakDownURL url with
    | Except.error e => Except.error (Fault.uncaught e)
    | Except.ok (host, port, path) =>
      Except.ok (processData env sp (net.response host port (httpRequest host path))
        ⟨w.trace ++ [Event.connect host port, Event.send (httpRequest host path)],
          w.spawned⟩)
  | _ => Except.error Fault.out_of_bounds

/-- The body of the loop of `main` for a line that is not skipped: the line is
tokenized, `argList[1]` is searched for `http` and `processURL` called when it is
found; then, whatever the first test gave, `argList[0]` decides between
`processCommands` and a direct command. -/
def mainBody (env : Env) (net : Net) (line : Str) (w : World) : Except Fault World :=
  match splitString line with
  | first :: second :: more =>
    let argList := first :: second :: more
    let found := find second "http".toList
    match (if found ≠ npos then processURL env net argList w else Except.ok w) with
    | Except.error f => Except.error f
    | Except.ok w1 =>
      if first = "SERIAL".toList ∨ first = "PARALLEL".toList then
        match processCommands env argList w1 with
        | some w2 => Except.ok w2
        | none => Except.error Fault.out_of_bounds
      else
        let started := runCommands argList w1
        Except.ok (printExitCode env started.1 started.2)
  | _ => Except.error Fault.out_of_bounds

/-- The loop of `main` over the lines `std::getline` yields from `std::cin`: the
prompt is written before every read, the loop ends at the end of input or at a line
equal to `exit`, and a line that is empty or starts with `#` is skipped. -/
def mainLoop (env : Env) (net : Net) : List Str → World → Except Fault World
  | [], w => Except.ok ⟨w.trace ++ [Event.prompt], w.spawned⟩
  | line :: rest, w =>
    if line = "exit".toList then Except.ok ⟨w.trace ++ [Event.prompt], w.spawned⟩
    else if line.isEmpty || line.head? == some '#' then
      mainLoop env net rest ⟨w.trace ++ [Event.prompt], w.spawned⟩
    else
      match mainBody env net line ⟨w.trace ++ [Event.prompt], w.spawned⟩ with
      | Except.error f => Except.error f
      | Except.ok w1 => mainLoop env net rest w1

/-- The connections opened, in order. -/
def connections (trace : List Event) : List (Str × Str) :=
  trace.filterMap fun e => match e with
    | Event.connect host port => some (host, port)
    | _ => none

/-- The byte strings written to connections, in order. -/
def sentBytes (trace : List Event) : List Str :=
  trace.filterMap fun e => match e with
    | Event.send bytes => some bytes
    | _ => none

/-! ## Predicates of the specification -/

/-- Whether a double quote occurs unescaped in a string read from its start: a
backslash escapes the character after it. -/
def hasUnescapedQuote : Str → Bool
  | [] => false
  | c :: cs =>
    if c = '\\' then
      match cs with
      | [] => false
      | _ :: rest => hasUnescapedQuote rest
    else if c = '"' then true
    else hasUnescapedQuote cs

/-- Whether every token of the input is read to its end within the given number of
extractions: each extraction succeeds until only whitespace is left. -/
def tokensClosedWithin : Nat → Str → Bool
  | 0, _ => false
  | fuel + 1, input =>
    match extractQuoted input with
    | some (_, rest) => tokensClosedWithin fuel rest
    | none => (skipws input).isEmpty

/-- Whether no quoted token of the line is left open: the line can be read token by
token down to trailing whitespace. -/
def tokensClosed (line : Str) : Bool :=
  tokensClosedWithin (line.length + 1) line

/-- Whether a line is empty or ends in a whitespace character. -/
def endsInSpace (line : Str) : Bool :=
  match line.getLast? with
  | none => true
  | some c => isspace c

/-- Whether a sequence of output lines alternates `Running:`, `Exit code:`,
`Running:`, `Exit code:`, and so on, ending after an `Exit code:` line. -/
def alternates : List Event → Bool
  | [] => true
  | Event.running _ :: Event.exitCode _ :: rest => alternates rest
  | _ => false

/-- Whether an event belongs to starting a child: its `Running:` line or its
`forkNexec` call. -/
def Event.isStart : Event → Bool
  | Event.running _ => true
  | Event.forkNexec _ => true
  | _ => false

/-- Whether an event belongs to collecting a child: the `wait()` call or the
`Exit code:` line. -/
def Event.isCollect : Event → Bool
  | Event.wait _ => true
  | Event.exitCode _ => true
  | _ => false

/-- Whether a trace is a sequence of whole runs, one per child: the `Running:` line,
the `forkNexec` call, the `wait()` call and the `Exit code:` line, each run complete
before the next begins. -/
def inSerialOrder : List Event → Bool
  | [] => true
  | Event.running _ :: Event.forkNexec _ :: Event.wait _ :: Event.exitCode _ :: rest =>
    inSerialOrder rest
  | _ => false

/-- The events of a batch of command lines in a mode, the first child having
ordinal `k`: one after the other in `SERIAL` mode, otherwise all started and then
all waited on. -/
def batchEvents (env : Env) (mode : Str) (k : Nat) (cmds : List Str) : List Event :=
  if mode = "SERIAL".toList then serialEvents env k cmds
  else startEvents cmds ++ waitEvents env (childrenFrom k cmds.length)

/-! ## Child process lifecycle -/

/-- Modelled from the spec: the lifecycle state of a Child Process, whose class
`ChildProcess` is declared in `ChildProcess.h`, a file that is not among the sources.
The states are NotStarted, Running (with the handle assigned at spawn) and
Exited with the exit code. -/
inductive Lifecycle where
  | notStarted
  | running (handle : Nat)
  | exited (code : Int)
  deriving DecidableEq, Repr

/-- Modelled from the spec: the error of calling `wait()` before `start()`
(InvalidStateError); `ChildProcess.h` is not among the sources. -/
inductive LifecycleError where
  | invalidState
  deriving DecidableEq, Repr

/-- Modelled from the spec: the result of one `wait()` call on a Child Process
(`ChildProcess.h` is not among the sources): the integer returned, the state after
the call and the handles the operating system was asked to wait for. -/
structure WaitResult where
  /-- The value `wait()` returns. -/
  code : Int
  /-- The lifecycle state after the call. -/
  state : Lifecycle
  /-- The operating-system processes waited for during the call. -/
  osWaits : List Nat
  deriving DecidableEq, Repr

/-- Modelled from the spec: `wait()` of the missing class `ChildProcess`. On a
Running process it blocks until the process with that handle terminates, returns its
exit status (`os handle`) and moves the state to Exited; on a process that already
exited it returns the cached status without asking the operating system; before
`start()` it fails with InvalidStateError. -/
def Lifecycle.wait (os : Nat → Int) : Lifecycle → Except LifecycleError WaitResult
  | Lifecycle.notStarted => Except.error LifecycleError.invalidState
  | Lifecycle.running handle => Except.ok ⟨os handle, Lifecycle.exited (os handle), [handle]⟩
  | Lifecycle.exited code => Except.ok ⟨code, Lifecycle.exited code, []⟩

/-! ## The tokenizer: termination and the loop equation -/

theorem readQuoted_length_aux (n : Nat) :
    ∀ (s w r : Str), s.length ≤ n → readQuoted s = some (w, r) → r.length < s.length := by
  induction n using Nat.strong_induction_on with
  | _ n ih =>
    intro s w r hn h
    match s, hn, h with
    | [], _, h => simp [readQuoted] at h
    | c :: cs, hn, h =>
      unfold readQuoted at h
      simp only [List.length_cons] at hn ⊢
      split at h
      · match cs, hn, h with
        | [], _, h => simp at h
        | e :: rest, hn, h =>
          simp only [Option.map_eq_some', Prod.mk.injEq] at h
          obtain ⟨⟨w1, r1⟩, h1, -, h2⟩ := h
          simp only at h2
          subst h2
          simp only [List.length_cons] at hn ⊢
          have := ih rest.length (by omega) rest w1 r1 (le_refl _) h1
          omega
      · split at h
        · simp only [Option.some.injEq, Prod.mk.injEq] at h
          obtain ⟨-, rfl⟩ := h
          omega
        · simp only [Option.map_eq_some', Prod.mk.injEq] at h
          obtain ⟨⟨w1, r1⟩, h1, -, h2⟩ := h
          simp only at h2
          subst h2
          have := ih cs.length (by omega) cs w1 r1 (le_refl _) h1
          omega

theorem readQuoted_length (s w r : Str) (h : readQuoted s = some (w, r)) :
    r.length < s.length :=
  readQuoted_length_aux s.length s w r (le_refl _) h

theorem skipws_length (s : Str) : (skipws s).length ≤ s.length :=
  (List.dropWhile_sublist _).length_le

theorem skipws_head_not_space {s : Str} {c : Char} {cs : Str} (h : skipws s = c :: cs) :
    isspace c = false := by
  induction s with
  | nil => simp [skipws] at h
  | cons x xs ih =>
    by_cases hx : isspace x = true
    · apply ih
      simpa [skipws, List.dropWhile_cons, hx] using h
    · simp only [skipws, List.dropWhile_cons, hx, Bool.false_eq_true, if_false,
        List.cons.injEq] at h
      obtain ⟨rfl, -⟩ := h
      simpa using hx

theorem extractQuoted_length {s w r : Str} (h : extractQuoted s = some (w, r)) :
    r.length < s.length := by
  unfold extractQuoted at h
  have hlen := skipws_length s
  split at h
  · simp at h
  · rename_i c cs hs
    rw [hs] at hlen
    simp only [List.length_cons] at hlen
    split at h
    · have := readQuoted_length cs w r h
      omega
    · have hc := skipws_head_not_space hs
      simp only [Option.some.injEq, Prod.mk.injEq] at h
      obtain ⟨-, rfl⟩ := h
      have : ((c :: cs).dropWhile fun x => !isspace x).length ≤ cs.length := by
        rw [List.dropWhile_cons_of_pos (by simp [hc])]
        exact (List.dropWhile_sublist _).length_le
      omega

/-- Any two iteration bounds above the length of the input give the same tokens: the
bound of `splitString` is never what ends the loop. -/
theorem splitLoop_fuel (n : Nat) :
    ∀ (m : Nat) (s : Str), s.length < n → s.length < m → splitLoop n s = splitLoop m s := by
  induction n with
  | zero => intro m s h; omega
  | succ n ih =>
    intro m s hn hm
    cases m with
    | zero => omega
    | succ m =>
      simp only [splitLoop]
      cases hx : extractQuoted s with
      | none => rfl
      | some wr =>
        obtain ⟨w, r⟩ := wr
        have := extractQuoted_length hx
        simp only
        rw [ih m r (by omega) (by omega)]

/-- The loop equation of `splitString`: one extraction, then the rest of the line. -/
theorem splitString_eq (s : Str) :
    splitString s =
      match extractQuoted s with
      | none => []
      | some (w, r) => w :: splitString r := by
  show splitLoop (s.length + 1) s = _
  rw [splitLoop]
  cases hx : extractQuoted s with
  | none => rfl
  | some wr =>
    obtain ⟨w, r⟩ := wr
    have := extractQuoted_length hx
    simp only [splitString]
    rw [splitLoop_fuel s.length (r.length + 1) r (by omega) (by omega)]

/-! ## The tokenizer on lines without quotes -/

theorem whitespaceSplit_nil : whitespaceSplit [] = [] := by
  simp [whitespaceSplit]

theorem whitespaceSplit_cons_space {x : Char} (xs : Str) (h : isspace x = true) :
    whitespaceSplit (x :: xs) = whitespaceSplit xs := by
  simp [whitespaceSplit, List.splitOnP_cons, h]

theorem whitespaceSplit_skipws (s : Str) : whitespaceSplit s = whitespaceSplit (skipws s) := by
  induction s with
  | nil => rfl
  | cons x xs ih =>
    by_cases hx : isspace x = true
    · rw [whitespaceSplit_cons_space xs hx, ih]
      simp [skipws, List.dropWhile_cons, hx]
    · simp [skipws, List.dropWhile_cons, hx]

theorem dropWhile_head_cases {α : Type} (p : α → Bool) (l : List α) :
    l.dropWhile p = [] ∨ ∃ a r, l.dropWhile p = a :: r ∧ p a = false := by
  induction l with
  | nil => exact Or.inl rfl
  | cons x xs ih =>
    by_cases hx : p x = true
    · simpa [List.dropWhile_cons, hx] using ih
    · right
      exact ⟨x, xs, by simp [List.dropWhile_cons, hx], by simpa using hx⟩

theorem whitespaceSplit_word (w rest : Str) (hw : w ≠ [])
    (hns : ∀ x ∈ w, isspace x = false)
    (hrest : rest = [] ∨ ∃ a r, rest = a :: r ∧ isspace a = true) :
    whitespaceSplit (w ++ rest) = w :: whitespaceSplit rest := by
  have hns2 : ∀ x ∈ w, ¬ (isspace x = true) := fun x hx => by simp [hns x hx]
  rcases hrest with rfl | ⟨a, r, rfl, ha⟩
  · simp only [List.append_nil, whitespaceSplit_nil]
    simp only [whitespaceSplit, List.splitOnP_eq_single isspace w hns2]
    cases w with
    | nil => exact absurd rfl hw
    | cons x xs => simp
  · rw [whitespaceSplit_cons_space r ha]
    simp only [whitespaceSplit, List.splitOnP_first isspace w hns2 a ha r]
    cases w with
    | nil => exact absurd rfl hw
    | cons x xs => simp

theorem extractQuoted_unquoted {s : Str} {c : Char} {cs : Str} (hs : skipws s = c :: cs)
    (hc : c ≠ '"') :
    extractQuoted s = some ((c :: cs).takeWhile (fun x => !isspace x),
      (c :: cs).dropWhile (fun x => !isspace x)) := by
  simp [extractQuoted, hs, hc]

theorem splitString_no_quote_aux (n : Nat) :
    ∀ line : Str, line.length ≤ n → '"' ∉ line → splitString line = whitespaceSplit line := by
  induction n using Nat.strong_induction_on with
  | _ n ih =>
    intro line hn hq
    rw [splitString_eq, whitespaceSplit_skipws]
    cases hs : skipws line with
    | nil => simp [extractQuoted, hs, whitespaceSplit_nil]
    | cons c cs =>
      have hsub : ∀ x ∈ c :: cs, x ∈ line := fun x hx =>
        (List.dropWhile_sublist isspace).subset (by rw [skipws] at hs; rw [hs]; exact hx)
      have hc : c ≠ '"' := fun h => hq (h ▸ hsub c (List.mem_cons_self _ _))
      have hcs : isspace c = false := skipws_head_not_space hs
      have hx := extractQuoted_unquoted hs hc
      have hlen := extractQuoted_length hx
      rw [hx]
      simp only
      have hdq : '"' ∉ (c :: cs).dropWhile (fun x => !isspace x) := fun h =>
        hq (hsub _ ((List.dropWhile_sublist _).subset h))
      rw [ih _ (Nat.lt_of_lt_of_le hlen hn) _ (le_refl _) hdq]
      have hsplit := List.takeWhile_append_dropWhile (fun x => !isspace x) (c :: cs)
      have hword := whitespaceSplit_word ((c :: cs).takeWhile (fun x => !isspace x))
        ((c :: cs).dropWhile (fun x => !isspace x))
        (by simp [List.takeWhile_cons, hcs])
        (fun x hx => by simpa using List.mem_takeWhile_imp hx)
        (by
          rcases dropWhile_head_cases (fun x => !isspace x) (c :: cs) with h | ⟨a, r, h, ha⟩
          · exact Or.inl h
          · exact Or.inr ⟨a, r, h, by simpa using ha⟩)
      rw [hsplit] at hword
      exact hword.symm

theorem splitString_all_space (line : Str) (h : ∀ c ∈ line, isspace c = true) :
    splitString line = [] := by
  have : skipws line = [] := by
    simpa [skipws, List.dropWhile_eq_nil_iff] using h
  rw [splitString_eq]
  simp [extractQuoted, this]

/-- C1. On a line without a double quote, `splitString` is the whitespace split: the
maximal runs of non-whitespace characters, in order, none empty; when the line is
empty or all whitespace the result is the empty sequence. -/
theorem splitString_eq_whitespaceSplit (line : Str) (h : '"' ∉ line) :
    splitString line = whitespaceSplit line ∧
      ((∀ c ∈ line, isspace c = true) → splitString line = []) :=
  ⟨splitString_no_quote_aux line.length line (le_refl _) h, splitString_all_space line⟩

theorem splitString_eq_whitespaceSplit_witness :
    splitString "  ls   -l\t/tmp ".toList = ["ls".toList, "-l".toList, "/tmp".toList] ∧
      splitString "".toList = [] ∧ splitString " \t ".toList = [] :=
  ⟨(splitString_eq_whitespaceSplit "  ls   -l\t/tmp ".toList (by decide)).1.trans (by decide),
   (splitString_eq_whitespaceSplit "".toList (by decide)).2 (by decide),
   (splitString_eq_whitespaceSplit " \t ".toList (by decide)).2 (by decide)⟩

/-! ## Quoted tokens -/

/-- Induction along the way a quoted body is read: an escape pair is taken two
characters at a time, any other character one at a time. -/
theorem escape_induction (P : Str → Prop) (hnil : P [])
    (hlast : P ['\\'])
    (hesc : ∀ e rest, P rest → P ('\\' :: e :: rest))
    (hplain : ∀ c cs, c ≠ '\\' → P cs → P (c :: cs)) : ∀ s, P s := by
  have key : ∀ n (s : Str), s.length ≤ n → P s := by
    intro n
    induction n with
    | zero =>
      intro s hs
      have : s = [] := List.eq_nil_of_length_eq_zero (Nat.le_zero.mp hs)
      exact this ▸ hnil
    | succ n ih =>
      intro s hs
      match s, hs with
      | [], _ => exact hnil
      | c :: cs, hs =>
        simp only [List.length_cons] at hs
        by_cases hc : c = '\\'
        · subst hc
          match cs, hs with
          | [], _ => exact hlast
          | e :: rest, hs =>
            simp only [List.length_cons] at hs
            exact hesc e rest (ih rest (by omega))
        · exact hplain c cs hc (ih cs (by omega))
  exact fun s => key s.length s (le_refl _)

theorem readQuoted_esc (e : Char) (rest : Str) :
    readQuoted ('\\' :: e :: rest) = (readQuoted rest).map fun wr => (e :: wr.1, wr.2) := by
  simp [readQuoted]

theorem readQuoted_quote (cs : Str) : readQuoted ('"' :: cs) = some ([], cs) := by
  have : ('"' : Char) ≠ '\\' := by decide
  cases cs <;> simp [readQuoted, this]

theorem readQuoted_plain (c : Char) (cs : Str) (hc : c ≠ '\\') (hq : c ≠ '"') :
    readQuoted (c :: cs) = (readQuoted cs).map fun wr => (c :: wr.1, wr.2) := by
  cases cs <;> simp [readQuoted, hc, hq]

theorem unescape_esc (e : Char) (rest : Str) :
    unescape ('\\' :: e :: rest) = (unescape rest).map fun u => e :: u := by
  simp [unescape]

theorem unescape_quote (cs : Str) : unescape ('"' :: cs) = none := by
  have : ('"' : Char) ≠ '\\' := by decide
  cases cs <;> simp [unescape, this]

theorem unescape_plain_cons (c : Char) (cs : Str) (hc : c ≠ '\\') (hq : c ≠ '"') :
    unescape (c :: cs) = (unescape cs).map fun u => c :: u := by
  cases cs <;> simp [unescape, hc, hq]

theorem readQuoted_unescape (c : Str) :
    ∀ (u rest : Str), unescape c = some u →
      readQuoted (c ++ '"' :: rest) = some (u, rest) := by
  induction c using escape_induction with
  | hnil =>
    intro u rest h
    simp only [unescape, Option.some.injEq] at h
    subst h
    simp [readQuoted_quote]
  | hlast => intro u rest h; simp [unescape] at h
  | hesc e r ih =>
    intro u rest h
    simp only [unescape_esc, Option.map_eq_some'] at h
    obtain ⟨u1, h1, rfl⟩ := h
    simp [readQuoted_esc, ih u1 rest h1]
  | hplain x xs hx ih =>
    intro u rest h
    by_cases hq : x = '"'
    · subst hq; simp [unescape_quote] at h
    · simp only [unescape_plain_cons x xs hx hq, Option.map_eq_some'] at h
      obtain ⟨u1, h1, rfl⟩ := h
      simp [readQuoted_plain x _ hx hq, ih u1 rest h1]

theorem unescape_length (c : Str) :
    ∀ u : Str, unescape c = some u →
      u.length ≤ c.length ∧ ('\\' ∈ c → u.length < c.length) := by
  induction c using escape_induction with
  | hnil =>
    intro u h
    simp only [unescape, Option.some.injEq] at h
    subst h
    simp
  | hlast => intro u h; simp [unescape] at h
  | hesc e r ih =>
    intro u h
    simp only [unescape_esc, Option.map_eq_some'] at h
    obtain ⟨u1, h1, rfl⟩ := h
    have := (ih u1 h1).1
    simp only [List.length_cons]
    exact ⟨by omega, fun _ => by omega⟩
  | hplain x xs hx ih =>
    intro u h
    by_cases hq : x = '"'
    · subst hq; simp [unescape_quote] at h
    · simp only [unescape_plain_cons x xs hx hq, Option.map_eq_some'] at h
      obtain ⟨u1, h1, rfl⟩ := h
      have := ih u1 h1
      simp only [List.length_cons, List.mem_cons]
      refine ⟨by omega, fun hm => ?_⟩
      rcases hm with hm | hm
      · exact absurd hm.symm hx
      · have := this.2 hm
        omega

theorem unescape_plain (c : Str) (hq : '"' ∉ c) (hb : '\\' ∉ c) : unescape c = some c := by
  induction c with
  | nil => rfl
  | cons x xs ih =>
    simp only [List.mem_cons, not_or] at hq hb
    have hx : x ≠ '\\' := fun h => hb.1 h.symm
    have hx2 : x ≠ '"' := fun h => hq.1 h.symm
    simp [unescape_plain_cons x xs hx hx2, ih hq.2 hb.2]

theorem unescape_no_backslash (c : Str) (hb : '\\' ∉ c) :
    ∀ u : Str, unescape c = some u → u = c := by
  induction c with
  | nil => intro u h; simpa [unescape] using h.symm
  | cons x xs ih =>
    intro u h
    simp only [List.mem_cons, not_or] at hb
    have hx : x ≠ '\\' := fun h => hb.1 h.symm
    by_cases hq : x = '"'
    · subst hq; simp [unescape_quote] at h
    · simp only [unescape_plain_cons x xs hx hq, Option.map_eq_some'] at h
      obtain ⟨u1, h1, rfl⟩ := h
      rw [ih hb.2 u1 h1]

theorem extractQuoted_cons_space {x : Char} (s : Str) (h : isspace x = true) :
    extractQuoted (x :: s) = extractQuoted s := by
  simp [extractQuoted, skipws, List.dropWhile_cons, h]

theorem extractQuoted_nil : extractQuoted [] = none := rfl

theorem extractQuoted_quote (s : Str) : extractQuoted ('"' :: s) = readQuoted s := by
  have : isspace '"' = false := by decide
  simp [extractQuoted, skipws, List.dropWhile_cons, this]

theorem extractQuoted_word (w rest : Str) (hw : w ≠ [])
    (hns : ∀ x ∈ w, isspace x = false) (hq : ∀ x ∈ w, x ≠ '"')
    (hrest : rest = [] ∨ ∃ a r, rest = a :: r ∧ isspace a = true) :
    extractQuoted (w ++ rest) = some (w, rest) := by
  cases w with
  | nil => exact absurd rfl hw
  | cons c cs =>
    have hc : isspace c = false := hns c (List.mem_cons_self _ _)
    have hs : skipws ((c :: cs) ++ rest) = c :: (cs ++ rest) := by
      simp [skipws, List.dropWhile_cons, hc]
    rw [extractQuoted_unquoted hs (hq c (List.mem_cons_self _ _))]
    have hall : ∀ a ∈ c :: cs, (fun x => !isspace x) a = true := fun a ha => by
      simp [hns a ha]
    have e1 : c :: (cs ++ rest) = (c :: cs) ++ rest := rfl
    rw [e1, List.takeWhile_append_of_pos hall, List.dropWhile_append_of_pos hall]
    rcases hrest with rfl | ⟨a, r, rfl, ha⟩
    · simp
    · simp [List.takeWhile_cons, List.dropWhile_cons, ha]

/-- C2. A double-quoted substring between two plain words becomes one token, its
embedded whitespace kept and its quotes removed: for non-empty words `a`, `d`
without whitespace or double quote and `q` without double quote or backslash,
`splitString (a ++ " \"" ++ q ++ "\" " ++ d) = [a, q, d]`. -/
theorem splitString_quoted_middle (a q d : Str) (ha : a ≠ []) (hd : d ≠ [])
    (has : ∀ c ∈ a, isspace c = false) (haq : '"' ∉ a)
    (hds : ∀ c ∈ d, isspace c = false) (hdq : '"' ∉ d)
    (hqq : '"' ∉ q) (hqb : '\\' ∉ q) :
    splitString (a ++ " \"".toList ++ q ++ "\" ".toList ++ d) = [a, q, d] := by
  have hsp : isspace ' ' = true := by decide
  have e : a ++ " \"".toList ++ q ++ "\" ".toList ++ d =
      a ++ (' ' :: '"' :: (q ++ '"' :: (' ' :: (d ++ [])))) := by simp
  rw [e, splitString_eq,
    extractQuoted_word a _ ha has (fun x hx h => haq (h ▸ hx)) (Or.inr ⟨_, _, rfl, hsp⟩)]
  simp only
  rw [splitString_eq, extractQuoted_cons_space _ hsp, extractQuoted_quote,
    readQuoted_unescape q q _ (unescape_plain q hqq hqb)]
  simp only
  rw [splitString_eq, extractQuoted_cons_space _ hsp,
    extractQuoted_word d [] hd hds (fun x hx h => hdq (h ▸ hx)) (Or.inl rfl)]
  simp only
  rw [splitString_eq, extractQuoted_nil]

theorem splitString_quoted_middle_witness :
    splitString "a \"b c\" d".toList = ["a".toList, "b c".toList, "d".toList] :=
  splitString_quoted_middle "a".toList "b c".toList "d".toList (by decide) (by decide)
    (by decide) (by decide) (by decide) (by decide) (by decide) (by decide)

/-- C3, as the code has it. A line that is one double-quoted token, the content `c`
closed by the first unescaped double quote, gives exactly one token: `c` with every
escaping backslash removed and the character after it kept. The token is `c` itself
exactly when `c` contains no backslash. -/
theorem splitString_quoted_token (c u : Str) (h : unescape c = some u) :
    splitString ('"' :: c ++ ['"']) = [u] ∧ (u = c ↔ '\\' ∉ c) := by
  constructor
  · have e : '"' :: c ++ ['"'] = '"' :: (c ++ '"' :: []) := by simp
    rw [e, splitString_eq, extractQuoted_quote, readQuoted_unescape c u [] h]
    simp only
    rw [splitString_eq, extractQuoted_nil]
  · constructor
    · intro huc hb
      have := (unescape_length c u h).2 hb
      rw [huc] at this
      exact Nat.lt_irrefl _ this
    · intro hb
      exact unescape_no_backslash c hb u h

theorem splitString_quoted_token_witness :
    splitString "\"say \\\"hi\\\" \"".toList = ["say \"hi\" ".toList] :=
  (splitString_quoted_token "say \\\"hi\\\" ".toList "say \"hi\" ".toList (by decide)).1

/-- C3, the claim as written fails: the line `"a\b"` is one quoted token with content
`a\b`, closed by its first unescaped double quote, and the token returned is `ab`,
without the backslash. -/
theorem splitString_quoted_token_not_verbatim :
    unescape "a\\b".toList = some "ab".toList ∧
      splitString ('"' :: "a\\b".toList ++ ['"']) = ["ab".toList] ∧
      splitString ('"' :: "a\\b".toList ++ ['"']) ≠ ["a\\b".toList] := by
  decide

/-! ## URL decomposer: index arithmetic and searches -/

theorem addSize_eq (a b : Nat) (h : a + b < sizeMod) : addSize a b = a + b :=
  Nat.mod_eq_of_lt h

theorem subSize_eq (a b : Nat) (hb : b ≤ a) (ha : a < sizeMod) : subSize a b = a - b := by
  unfold subSize
  rw [Nat.mod_eq_of_lt ha, Nat.mod_eq_of_lt (lt_of_le_of_lt hb ha)]
  have e : a + (sizeMod - b) = (a - b) + sizeMod := by omega
  rw [e, Nat.add_mod_right, Nat.mod_eq_of_lt (by omega)]

theorem npos_lt_sizeMod : npos < sizeMod := by decide

theorem npos_add_two : addSize npos 2 = 1 := by decide

theorem findChar_of_not_mem (s : Str) (c : Char) (pos : Nat) (h : c ∉ s.drop pos) :
    findChar s c pos = npos := by
  simp [findChar, h]

theorem findChar_of_mem (s : Str) (c : Char) (pos : Nat) (h : c ∈ s.drop pos) :
    findChar s c pos = pos + (s.drop pos).indexOf c := by
  simp [findChar, h]

theorem findChar_of_split (s : Str) (c : Char) (pos : Nat) (pre post : Str)
    (hs : s.drop pos = pre ++ c :: post) (hpre : c ∉ pre) :
    findChar s c pos = pos + pre.length := by
  have hm : c ∈ s.drop pos := by rw [hs]; simp
  rw [findChar_of_mem s c pos hm, hs, List.indexOf_append_of_not_mem hpre,
    List.indexOf_cons_self]
  rfl

theorem findChar_lt_length (s : Str) (c : Char) (pos : Nat) (h : c ∈ s.drop pos) :
    findChar s c pos < s.length := by
  rw [findChar_of_mem s c pos h]
  have h1 : (s.drop pos).indexOf c < (s.drop pos).length := List.indexOf_lt_length.mpr h
  rw [List.length_drop] at h1
  omega

theorem findChar_ge (s : Str) (c : Char) (pos : Nat) (h : c ∈ s.drop pos) :
    pos ≤ findChar s c pos := by
  rw [findChar_of_mem s c pos h]
  omega

theorem findChar_cases (s : Str) (c : Char) (pos : Nat) :
    findChar s c pos = npos ∨ (pos ≤ findChar s c pos ∧ findChar s c pos < s.length) := by
  by_cases h : c ∈ s.drop pos
  · exact Or.inr ⟨findChar_ge s c pos h, findChar_lt_length s c pos h⟩
  · exact Or.inl (findChar_of_not_mem s c pos h)

theorem findFrom_of_not_infix (pat : Str) (hpat : pat ≠ []) (s : Str) :
    ∀ i, ¬ (pat <:+: s) → findFrom pat s i = npos := by
  induction s with
  | nil => intro i _; simp [findFrom, hpat]
  | cons c cs ih =>
    intro i h
    have h1 : pat.isPrefixOf (c :: cs) = false := by
      cases hp : pat.isPrefixOf (c :: cs) with
      | false => rfl
      | true => exact absurd (List.isPrefixOf_iff_prefix.mp hp).isInfix h
    have h2 : ¬ (pat <:+: cs) := fun hh => h (hh.trans (List.suffix_cons c cs).isInfix)
    simp [findFrom, h1, ih (i + 1) h2]

/-- With the scheme free of `//`, the first `//` of `scheme://rest` is the one that
follows the colon. -/
theorem findFrom_scheme (sch rest : Str) :
    ∀ i, ¬ ("//".toList <:+: sch) →
      findFrom "//".toList (sch ++ ':' :: '/' :: '/' :: rest) i = i + sch.length + 1 := by
  induction sch with
  | nil =>
    intro i _
    have h1 : List.isPrefixOf "//".toList (':' :: '/' :: '/' :: rest) = false := by
      simp [List.isPrefixOf]
    have h2 : List.isPrefixOf "//".toList ('/' :: '/' :: rest) = true := by
      simp [List.isPrefixOf]
    simp [findFrom, h1, h2]
  | cons c cs ih =>
    intro i h
    have h2 : ¬ ("//".toList <:+: cs) := fun hh => h (hh.trans (List.suffix_cons c cs).isInfix)
    have h1 : List.isPrefixOf "//".toList (c :: cs ++ ':' :: '/' :: '/' :: rest) = false := by
      cases hp : List.isPrefixOf "//".toList (c :: cs ++ ':' :: '/' :: '/' :: rest) with
      | false => rfl
      | true =>
        exfalso
        apply h
        cases cs with
        | nil => simp [List.isPrefixOf] at hp
        | cons d ds =>
          simp only [String.toList, List.cons_append, List.isPrefixOf, Bool.and_true,
            Bool.and_eq_true, beq_iff_eq] at hp
          obtain ⟨rfl, rfl⟩ := hp
          exact ⟨[], ds, rfl⟩
    simp only [List.cons_append] at h1 ⊢
    simp only [findFrom, h1, Bool.false_eq_true, if_false, List.length_cons]
    rw [ih (i + 1) h2]
    omega

theorem hostStart_of_not_infix (url : Str) (h : ¬ ("//".toList <:+: url)) :
    hostStart url = 1 := by
  rw [hostStart, find, findFrom_of_not_infix _ (by decide) url 0 h]
  exact npos_add_two

/-! ## URL decomposer: success and failure -/

theorem substr_ok (s : Str) (pos n : Nat) (h : pos ≤ s.length) :
    substr s pos n = Except.ok ((s.drop pos).take n) := by
  simp [substr, Nat.not_lt.mpr h]

theorem substr_error (s : Str) (pos n : Nat) (h : s.length < pos) :
    substr s pos n = Except.error Exception.out_of_range := by
  simp [substr, h]

/-- Without a `/` at or after `hostStart` the call `url.substr(pathStart)` is
reached with `pathStart = npos`, unless `url.substr(hostStart, ...)` has raised
already: either way `std::out_of_range`. -/
theorem breakDownURL_error_of_no_slash (url : Str) (hlen : url.length < npos)
    (h : '/' ∉ url.drop (hostStart url)) :
    breakDownURL url = Except.error Exception.out_of_range := by
  have hp : pathStart url = npos := findChar_of_not_mem url '/' _ h
  unfold breakDownURL
  simp only [hp]
  cases hh : substr url (hostStart url)
      (subSize (if portPos url = npos then npos else portPos url) (hostStart url)) with
  | error e => cases e; rfl
  | ok hostName => simp only [substr_error url npos npos hlen]

/-- With a `/` at or after `hostStart` every `substr` call is in range and the
triple is returned. -/
theorem breakDownURL_ok_of_slash (url : Str) (h : '/' ∈ url.drop (hostStart url)) :
    breakDownURL url = Except.ok
      ((url.drop (hostStart url)).take
          (subSize (if portPos url = npos then pathStart url else portPos url) (hostStart url)),
       if portPos url = npos then "80".toList
       else (url.drop (addSize (portPos url) 1)).take
          (subSize (subSize (pathStart url) (portPos url)) 1),
       (url.drop (pathStart url)).take npos) := by
  have hp : pathStart url < url.length := findChar_lt_length url '/' _ h
  have hs : hostStart url ≤ url.length := by
    have := findChar_ge url '/' _ h
    unfold pathStart at hp
    omega
  unfold breakDownURL
  simp only [substr_ok url _ _ hs, substr_ok url _ _ (Nat.le_of_lt hp)]
  by_cases hc : portPos url = npos
  · simp [hc]
  · have hc2 : portPos url < url.length := by
      rcases findChar_cases url ':' (hostStart url) with h0 | h0
      · exact absurd h0 hc
      · exact h0.2
    have hc3 : addSize (portPos url) 1 ≤ url.length := by
      unfold addSize
      exact le_trans (Nat.mod_le _ _) hc2
    simp [hc, substr_ok url _ _ hc3]

/-- C4. Decomposition undoes composition when a port is given: for a scheme `s`
without `//`, a host `h` without `/` and `:`, a port `p` without `/` and a path `t`
that begins with `/`, `breakDownURL (s ++ "://" ++ h ++ ":" ++ p ++ t) = (h, p, t)`.
The URL is one a `std::string` can hold: its length is below `npos`. -/
theorem breakDownURL_compose (s h p t : Str) (hs : ¬ ("//".toList <:+: s))
    (hh1 : '/' ∉ h) (hh2 : ':' ∉ h) (hp : '/' ∉ p) (ht : t.head? = some '/')
    (hlen : (s ++ "://".toList ++ h ++ ":".toList ++ p ++ t).length < npos) :
    breakDownURL (s ++ "://".toList ++ h ++ ":".toList ++ p ++ t) = Except.ok (h, p, t) := by
  obtain ⟨t1, rfl⟩ : ∃ t1, t = '/' :: t1 := by
    cases t with
    | nil => simp at ht
    | cons x xs => simp only [List.head?_cons, Option.some.injEq] at ht; exact ⟨xs, by rw [ht]⟩
  have eurl : s ++ "://".toList ++ h ++ ":".toList ++ p ++ '/' :: t1 =
      s ++ ':' :: '/' :: '/' :: (h ++ ':' :: (p ++ '/' :: t1)) := by simp
  rw [eurl] at hlen ⊢
  generalize hu : s ++ ':' :: '/' :: '/' :: (h ++ ':' :: (p ++ '/' :: t1)) = url at hlen ⊢
  have hul : url.length = s.length + 3 + h.length + 1 + p.length + 1 + t1.length := by
    rw [← hu]; simp; omega
  have hnp := npos_lt_sizeMod
  have hstart : hostStart url = s.length + 3 := by
    rw [hostStart, find, ← hu, findFrom_scheme s _ 0 hs, addSize_eq _ _ (by omega)]
    omega
  have d1 : url.drop (s.length + 3) = h ++ ':' :: (p ++ '/' :: t1) := by
    have e : url = (s ++ [':', '/', '/']) ++ (h ++ ':' :: (p ++ '/' :: t1)) := by
      rw [← hu]; simp
    rw [e]; exact List.drop_left' (by simp)
  have d2 : url.drop (s.length + 3 + h.length + 1) = p ++ '/' :: t1 := by
    have e : url = (s ++ [':', '/', '/'] ++ h ++ [':']) ++ (p ++ '/' :: t1) := by
      rw [← hu]; simp
    rw [e]; exact List.drop_left' (by simp; omega)
  have d3 : url.drop (s.length + 3 + (h.length + 1 + p.length)) = '/' :: t1 := by
    have e : url = (s ++ [':', '/', '/'] ++ h ++ [':'] ++ p) ++ ('/' :: t1) := by
      rw [← hu]; simp
    rw [e]; exact List.drop_left' (by simp; omega)
  have hpath : pathStart url = s.length + 3 + (h.length + 1 + p.length) := by
    rw [pathStart, hstart]
    have := findChar_of_split url '/' (s.length + 3) (h ++ ':' :: p) t1
      (by rw [d1]; simp)
      (by
        simp only [List.mem_append, List.mem_cons, not_or]
        exact ⟨hh1, by decide, hp⟩)
    rw [this]; simp; omega
  have hport : portPos url = s.length + 3 + h.length := by
    rw [portPos, hstart]
    exact findChar_of_split url ':' (s.length + 3) h (p ++ '/' :: t1) d1 hh2
  have hslash : '/' ∈ url.drop (hostStart url) := by
    rw [hstart, d1]; simp
  have hne : portPos url ≠ npos := by rw [hport]; omega
  rw [breakDownURL_ok_of_slash url hslash]
  simp only [hne, if_false]
  rw [hport, hpath, hstart, addSize_eq _ _ (by omega), d1, d2, d3,
    subSize_eq (s.length + 3 + h.length) (s.length + 3) (by omega) (by omega),
    subSize_eq (s.length + 3 + (h.length + 1 + p.length)) (s.length + 3 + h.length)
      (by omega) (by omega),
    subSize_eq _ 1 (by omega) (by omega)]
  have e1 : s.length + 3 + h.length - (s.length + 3) = h.length := by omega
  have e2 : s.length + 3 + (h.length + 1 + p.length) - (s.length + 3 + h.length) - 1 =
      p.length := by omega
  rw [e1, e2, List.take_left, List.take_left,
    List.take_of_length_le (by simp only [List.length_cons]; omega)]

theorem breakDownURL_compose_witness :
    breakDownURL "https://localhost:8080/~x/one.txt".toList =
      Except.ok ("localhost".toList, "8080".toList, "/~x/one.txt".toList) :=
  breakDownURL_compose "https".toList "localhost".toList "8080".toList "/~x/one.txt".toList
    (by decide) (by decide) (by decide) (by decide) (by decide) (by decide)

theorem breakDownURL_default_port (url : Str) (hlen : url.length < npos)
    (hslash : '/' ∈ url.drop (hostStart url)) (hcolon : ':' ∉ url.drop (hostStart url)) :
    breakDownURL url = Except.ok
      ((url.drop (hostStart url)).take (pathStart url - hostStart url), "80".toList,
       url.drop (pathStart url)) := by
  have hc : portPos url = npos := findChar_of_not_mem url ':' _ hcolon
  have hp : pathStart url < url.length := findChar_lt_length url '/' _ hslash
  have hge : hostStart url ≤ pathStart url := findChar_ge url '/' _ hslash
  have hnp := npos_lt_sizeMod
  rw [breakDownURL_ok_of_slash url hslash]
  simp only [hc, if_true]
  have e : (url.drop (pathStart url)).take npos = url.drop (pathStart url) :=
    List.take_of_length_le (by rw [List.length_drop]; omega)
  rw [subSize_eq _ _ hge (by omega), e]

/-- C5, the code at the failing input `http://host/a:b`: `//` is found, `hostStart`
is 7, the first `/` from there is at 11 and no `:` lies between the two, yet the `:`
of the path is taken for the port separator: the host returned is `host/a` and the
port `b`, not `host` and `80`. -/
theorem breakDownURL_colon_in_path :
    hostStart "http://host/a:b".toList = 7 ∧ pathStart "http://host/a:b".toList = 11 ∧
      ':' ∉ ("http://host/a:b".toList.drop 7).take (11 - 7) ∧
      breakDownURL "http://host/a:b".toList =
        Except.ok ("host/a".toList, "b".toList, "/a:b".toList) := by
  refine ⟨by decide, by decide, by decide, by rfl⟩

/-- C6. A URL without a `/` at or after the host-start position makes `breakDownURL`
raise `std::out_of_range`: no triple is returned, in particular none with the
default path `/`. The URL is one a `std::string` can hold. -/
theorem breakDownURL_no_path (url : Str) (hlen : url.length < npos)
    (h : '/' ∉ url.drop (hostStart url)) :
    breakDownURL url = Except.error Exception.out_of_range ∧
      ∀ host port, breakDownURL url ≠ Except.ok (host, port, "/".toList) := by
  have he := breakDownURL_error_of_no_slash url hlen h
  refine ⟨he, fun host port hok => ?_⟩
  rw [he] at hok
  cases hok

theorem breakDownURL_no_path_witness :
    breakDownURL "http://localhost".toList = Except.error Exception.out_of_range ∧
      breakDownURL "http://localhost:8080".toList = Except.error Exception.out_of_range :=
  ⟨(breakDownURL_no_path "http://localhost".toList (by decide) (by decide)).1,
   (breakDownURL_no_path "http://localhost:8080".toList (by decide) (by decide)).1⟩

/-- C7, as the code has it. For a URL without `//` the host-start index is
`npos + 2 = 1` modulo `2^64`, and `breakDownURL` raises `std::out_of_range` exactly
when the URL has no `/` at index 1 or later; with such a `/` a triple is returned.
The URL is one a `std::string` can hold. -/
theorem breakDownURL_no_double_slash (url : Str) (hlen : url.length < npos)
    (h : ¬ ("//".toList <:+: url)) :
    hostStart url = 1 ∧
      (breakDownURL url = Except.error Exception.out_of_range ↔ '/' ∉ url.drop 1) := by
  have hs := hostStart_of_not_infix url h
  refine ⟨hs, ?_, fun hno => breakDownURL_error_of_no_slash url hlen (by rw [hs]; exact hno)⟩
  intro herr hmem
  rw [breakDownURL_ok_of_slash url (by rw [hs]; exact hmem)] at herr
  cases herr

theorem breakDownURL_no_double_slash_witness :
    breakDownURL "localhost:8080".toList = Except.error Exception.out_of_range :=
  (breakDownURL_no_double_slash "localhost:8080".toList (by decide) (by decide)).2.mpr
    (by decide)

/-- C7, the claim as written fails: `a/b` contains no `//`, and `breakDownURL`
returns the triple with empty host, port `80` and path `/b`. -/
theorem breakDownURL_no_double_slash_returns :
    ¬ ("//".toList <:+: "a/b".toList) ∧
      breakDownURL "a/b".toList = Except.ok ("".toList, "80".toList, "/b".toList) := by
  refine ⟨by decide, by rfl⟩

/-! ## The scheduling loops -/

theorem commandLines_nil : commandLines [] = [] := rfl

theorem commandLines_exit (rest : List Str) : commandLines ("exit".toList :: rest) = [] := by
  simp [commandLines]

theorem commandLines_skip (line : Str) (rest : List Str) (hx : line ≠ "exit".toList)
    (hs : (line.isEmpty || line.head? == some '#') = true) :
    commandLines (line :: rest) = commandLines rest := by
  simp only [commandLines, List.takeWhile_cons, hx, ne_eq, not_false_eq_true, decide_True,
    if_true]
  rw [List.filter_cons_of_neg (by simp only [hs]; decide)]

theorem commandLines_run (line : Str) (rest : List Str) (hx : line ≠ "exit".toList)
    (hs : ¬ ((line.isEmpty || line.head? == some '#') = true)) :
    commandLines (line :: rest) = line :: commandLines rest := by
  have hs2 : (line.isEmpty || line.head? == some '#') = false := by simpa using hs
  simp only [commandLines, List.takeWhile_cons, hx, ne_eq, not_false_eq_true, decide_True,
    if_true]
  rw [List.filter_cons_of_pos (by simp only [hs2]; decide)]

theorem childrenFrom_succ (k n : Nat) :
    childrenFrom k (n + 1) = ChildProcess.mk k :: childrenFrom (k + 1) n := by
  simp [childrenFrom, List.range'_succ]

theorem processCommandsLoop_cons (env : Env) (mode line : Str) (rest : List Str) (w : World)
    (childList : List ChildProcess) :
    processCommandsLoop env mode (line :: rest) w childList =
      if line = "exit".toList then (w, childList)
      else if (line.isEmpty || line.head? == some '#') = true then
        processCommandsLoop env mode rest w childList
      else if mode = "SERIAL".toList then
        processCommandsLoop env mode rest
          (printExitCode env (runCommands (splitString line) w).1
            (runCommands (splitString line) w).2) childList
      else
        processCommandsLoop env mode rest (runCommands (splitString line) w).2
          (childList ++ [(runCommands (splitString line) w).1]) := rfl

/-- The loop of `processCommands` in `SERIAL` mode: the command lines of the script
are run one after the other, `childList` is left as it was. -/
theorem processCommandsLoop_serial (env : Env) (lines : List Str) :
    ∀ (w : World) (childList : List ChildProcess),
      processCommandsLoop env "SERIAL".toList lines w childList =
        (⟨w.trace ++ serialEvents env w.spawned (commandLines lines),
          w.spawned + (commandLines lines).length⟩, childList) := by
  induction lines with
  | nil => intro w cl; simp [processCommandsLoop, commandLines_nil, serialEvents]
  | cons line rest ih =>
    intro w cl
    rw [processCommandsLoop_cons]
    by_cases hx : line = "exit".toList
    · rw [if_pos hx, hx, commandLines_exit]
      simp [serialEvents]
    · by_cases hs : (line.isEmpty || line.head? == some '#') = true
      · rw [if_neg hx, if_pos hs, commandLines_skip line rest hx hs]
        exact ih w cl
      · rw [if_neg hx, if_neg hs, if_pos rfl, commandLines_run line rest hx hs, ih]
        simp [runCommands, printExitCode, serialEvents, Nat.add_assoc, Nat.add_comm 1]

/-- The loop of `processCommands` in any mode other than `SERIAL`: the command lines
are started one after the other and the children appended to `childList`. -/
theorem processCommandsLoop_parallel (env : Env) (mode : Str) (hm : mode ≠ "SERIAL".toList)
    (lines : List Str) :
    ∀ (w : World) (childList : List ChildProcess),
      processCommandsLoop env mode lines w childList =
        (⟨w.trace ++ startEvents (commandLines lines),
          w.spawned + (commandLines lines).length⟩,
         childList ++ childrenFrom w.spawned (commandLines lines).length) := by
  induction lines with
  | nil =>
    intro w cl
    simp [processCommandsLoop, commandLines_nil, startEvents, childrenFrom]
  | cons line rest ih =>
    intro w cl
    rw [processCommandsLoop_cons]
    by_cases hx : line = "exit".toList
    · rw [if_pos hx, hx, commandLines_exit]
      simp [startEvents, childrenFrom]
    · by_cases hs : (line.isEmpty || line.head? == some '#') = true
      · rw [if_neg hx, if_pos hs, commandLines_skip line rest hx hs]
        exact ih w cl
      · rw [if_neg hx, if_neg hs, if_neg hm, commandLines_run line rest hx hs, ih]
        simp [runCommands, startEvents, childrenFrom_succ, Nat.add_assoc, Nat.add_comm 1]

theorem drainChildList_eq (env : Env) (childList : List ChildProcess) :
    ∀ w : World, drainChildList env childList w =
      ⟨w.trace ++ waitEvents env childList, w.spawned⟩ := by
  induction childList with
  | nil => intro w; simp [drainChildList, waitEvents]
  | cons a rest ih =>
    intro w
    have := ih (printExitCode env a w)
    simp only [drainChildList, List.foldl_cons] at this ⊢
    rw [this]
    simp [printExitCode, waitEvents]

/-- The two scheduling loops are the same function of the lines. -/
theorem processDataLoop_eq (env : Env) (sp : Str) (lines : List Str) :
    ∀ (w : World) (childList : List ChildProcess),
      processDataLoop env sp lines w childList =
        processCommandsLoop env sp lines w childList := by
  induction lines with
  | nil => intro w cl; rfl
  | cons line rest ih =>
    intro w cl
    simp only [processDataLoop, processCommandsLoop, ih]

theorem skipHeaders_append (H : List Str) (t : Str) (B : List Str)
    (hH : ∀ l ∈ H, l ≠ [] ∧ l ≠ "\r".toList) (ht : t = [] ∨ t = "\r".toList) :
    skipHeaders (H ++ [t] ++ B) = B := by
  induction H with
  | nil =>
    rcases ht with rfl | rfl <;> simp [skipHeaders]
  | cons x xs ih =>
    have hx := hH x (List.mem_cons_self _ _)
    have hx1 : x.isEmpty = false := by
      cases x with
      | nil => exact absurd rfl hx.1
      | cons _ _ => rfl
    have := ih (fun l hl => hH l (List.mem_cons_of_mem _ hl))
    simp only [List.cons_append, List.append_assoc] at this ⊢
    simp only [skipHeaders, hx1, hx.2, ne_eq, not_false_eq_true, Bool.not_false, Bool.true_and,
      decide_True, if_true]
    exact this

/-! ## Reading the traces of the scheduling loops -/

theorem spawnedVectors_serialEvents (env : Env) (cmds : List Str) :
    ∀ k, spawnedVectors (serialEvents env k cmds) = cmds.map splitString := by
  induction cmds with
  | nil => intro k; rfl
  | cons l ls ih => intro k; have := ih (k + 1); simp_all [spawnedVectors, serialEvents]

theorem runningLines_serialEvents (env : Env) (cmds : List Str) :
    ∀ k, runningLines (serialEvents env k cmds) = cmds.map splitString := by
  induction cmds with
  | nil => intro k; rfl
  | cons l ls ih => intro k; have := ih (k + 1); simp_all [runningLines, serialEvents]

theorem exitCodeLines_serialEvents (env : Env) (cmds : List Str) :
    ∀ k, exitCodeLines (serialEvents env k cmds) =
      (List.range' k cmds.length).map env.exitStatus := by
  induction cmds with
  | nil => intro k; rfl
  | cons l ls ih =>
    intro k
    have := ih (k + 1)
    simp_all [exitCodeLines, serialEvents, List.range'_succ]

theorem waitedChildren_serialEvents (env : Env) (cmds : List Str) :
    ∀ k, waitedChildren (serialEvents env k cmds) = childrenFrom k cmds.length := by
  induction cmds with
  | nil => intro k; rfl
  | cons l ls ih =>
    intro k
    have := ih (k + 1)
    simp_all [waitedChildren, serialEvents, childrenFrom_succ]

theorem spawnedVectors_startEvents (cmds : List Str) :
    spawnedVectors (startEvents cmds) = cmds.map splitString := by
  induction cmds with
  | nil => rfl
  | cons l ls ih => simp_all [spawnedVectors, startEvents]

theorem runningLines_startEvents (cmds : List Str) :
    runningLines (startEvents cmds) = cmds.map splitString := by
  induction cmds with
  | nil => rfl
  | cons l ls ih => simp_all [runningLines, startEvents]

theorem exitCodeLines_startEvents (cmds : List Str) : exitCodeLines (startEvents cmds) = [] := by
  induction cmds with
  | nil => rfl
  | cons l ls ih => simp_all [exitCodeLines, startEvents]

theorem waitedChildren_startEvents (cmds : List Str) :
    waitedChildren (startEvents cmds) = [] := by
  induction cmds with
  | nil => rfl
  | cons l ls ih => simp_all [waitedChildren, startEvents]

theorem spawnedVectors_waitEvents (env : Env) (cl : List ChildProcess) :
    spawnedVectors (waitEvents env cl) = [] := by
  induction cl with
  | nil => rfl
  | cons a rest ih => simp_all [spawnedVectors, waitEvents]

theorem runningLines_waitEvents (env : Env) (cl : List ChildProcess) :
    runningLines (waitEvents env cl) = [] := by
  induction cl with
  | nil => rfl
  | cons a rest ih => simp_all [runningLines, waitEvents]

theorem exitCodeLines_waitEvents (env : Env) (cl : List ChildProcess) :
    exitCodeLines (waitEvents env cl) = cl.map fun a => env.exitStatus a.id := by
  induction cl with
  | nil => rfl
  | cons a rest ih => simp_all [exitCodeLines, waitEvents]

theorem waitedChildren_waitEvents (env : Env) (cl : List ChildProcess) :
    waitedChildren (waitEvents env cl) = cl := by
  induction cl with
  | nil => rfl
  | cons a rest ih => simp_all [waitedChildren, waitEvents]

theorem exitCodeLines_childrenFrom (env : Env) (k n : Nat) :
    (childrenFrom k n).map (fun a => env.exitStatus a.id) =
      (List.range' k n).map env.exitStatus := by
  simp [childrenFrom, Function.comp_def]

theorem spawnedVectors_append (a b : List Event) :
    spawnedVectors (a ++ b) = spawnedVectors a ++ spawnedVectors b := by
  simp [spawnedVectors]

theorem runningLines_append (a b : List Event) :
    runningLines (a ++ b) = runningLines a ++ runningLines b := by
  simp [runningLines]

theorem exitCodeLines_append (a b : List Event) :
    exitCodeLines (a ++ b) = exitCodeLines a ++ exitCodeLines b := by
  simp [exitCodeLines]

theorem waitedChildren_append (a b : List Event) :
    waitedChildren (a ++ b) = waitedChildren a ++ waitedChildren b := by
  simp [waitedChildren]

/-- `processCommands` in `SERIAL` mode. -/
theorem processCommands_serial (env : Env) (path : Str) (w : World) :
    processCommands env ["SERIAL".toList, path] w =
      some ⟨w.trace ++ serialEvents env w.spawned (commandLines (env.readFile path)),
        w.spawned + (commandLines (env.readFile path)).length⟩ := by
  show some (drainChildList env
      (processCommandsLoop env "SERIAL".toList (env.readFile path) w []).2
      (processCommandsLoop env "SERIAL".toList (env.readFile path) w []).1) = _
  rw [processCommandsLoop_serial, drainChildList_eq]
  simp [waitEvents]

/-- `processCommands` in a mode other than `SERIAL`. -/
theorem processCommands_parallel (env : Env) (mode path : Str) (hm : mode ≠ "SERIAL".toList)
    (w : World) :
    processCommands env [mode, path] w =
      some ⟨w.trace ++ (startEvents (commandLines (env.readFile path)) ++
          waitEvents env (childrenFrom w.spawned (commandLines (env.readFile path)).length)),
        w.spawned + (commandLines (env.readFile path)).length⟩ := by
  show some (drainChildList env
      (processCommandsLoop env mode (env.readFile path) w []).2
      (processCommandsLoop env mode (env.readFile path) w []).1) = _
  rw [processCommandsLoop_parallel env mode hm, drainChildList_eq]
  simp

/-- C8. For every script and every assignment of exit codes, `processCommands` in
`SERIAL` and in `PARALLEL` mode starts the same number of children and prints the same
`Exit code:` lines: the exit codes of the children in the order they were started,
one line per child, each child waited on exactly once and in that order. The order in
which the children finish is not an input of the code. -/
theorem exit_codes_in_issue_order (env : Env) (path : Str) :
    ∃ wS wP : World,
      processCommands env ["SERIAL".toList, path] World.start = some wS ∧
      processCommands env ["PARALLEL".toList, path] World.start = some wP ∧
      wS.spawned = wP.spawned ∧
      (spawnedVectors wS.trace).length = wS.spawned ∧
      (spawnedVectors wP.trace).length = wP.spawned ∧
      exitCodeLines wS.trace = exitCodeLines wP.trace ∧
      exitCodeLines wS.trace = (List.range wS.spawned).map env.exitStatus ∧
      waitedChildren wS.trace = (List.range wS.spawned).map ChildProcess.mk ∧
      waitedChildren wP.trace = (List.range wP.spawned).map ChildProcess.mk := by
  refine ⟨_, _, processCommands_serial env path World.start,
    processCommands_parallel env _ path (by decide) World.start, ?_⟩
  simp only [World.start, List.nil_append, Nat.zero_add, spawnedVectors_append,
    exitCodeLines_append, waitedChildren_append, spawnedVectors_serialEvents,
    exitCodeLines_serialEvents, waitedChildren_serialEvents, spawnedVectors_startEvents,
    exitCodeLines_startEvents, waitedChildren_startEvents, spawnedVectors_waitEvents,
    exitCodeLines_waitEvents, waitedChildren_waitEvents, exitCodeLines_childrenFrom,
    List.length_map, List.append_nil, List.range_eq_range', and_self, true_and]
  rfl

/-- C9. In either mode the argument vectors `processCommands` starts are, in order,
`splitString l` for the lines `l` before the first line equal to `exit` that are not
empty and do not start with `#`; the `Running:` lines are the same vectors and there
are as many `Exit code:` lines, so skipped lines and lines from `exit` on leave no
trace. On the file `# comment`, blank, `true`, `false`, `exit` in `SERIAL` mode:
`true` is started, waited on and its exit code printed, then `false`. -/
theorem spawned_are_command_lines (env : Env) (mode path : Str) :
    (∃ w : World, processCommands env [mode, path] World.start = some w ∧
      spawnedVectors w.trace = (commandLines (env.readFile path)).map splitString ∧
      runningLines w.trace = (commandLines (env.readFile path)).map splitString ∧
      (exitCodeLines w.trace).length = (commandLines (env.readFile path)).length) ∧
    ∀ exitStatus : Nat → Int,
      (processCommands
          ⟨exitStatus, fun _ =>
            ["# comment".toList, [], "true".toList, "false".toList, "exit".toList]⟩
          ["SERIAL".toList, path] World.start).map World.trace =
        some [Event.running ["true".toList], Event.forkNexec ["true".toList],
          Event.wait ⟨0⟩, Event.exitCode (exitStatus 0),
          Event.running ["false".toList], Event.forkNexec ["false".toList],
          Event.wait ⟨1⟩, Event.exitCode (exitStatus 1)] := by
  refine ⟨?_, fun exitStatus => rfl⟩
  by_cases hm : mode = "SERIAL".toList
  · subst hm
    refine ⟨_, processCommands_serial env path World.start, ?_⟩
    simp only [World.start, List.nil_append, spawnedVectors_serialEvents,
      runningLines_serialEvents, exitCodeLines_serialEvents, List.length_map,
      List.length_range', and_self]
  · refine ⟨_, processCommands_parallel env mode path hm World.start, ?_⟩
    simp only [World.start, List.nil_append, spawnedVectors_append, runningLines_append,
      exitCodeLines_append, spawnedVectors_startEvents, runningLines_startEvents,
      exitCodeLines_startEvents, spawnedVectors_waitEvents, runningLines_waitEvents,
      exitCodeLines_waitEvents, List.append_nil, List.length_map, childrenFrom,
      List.length_range', and_self]

/-- C10. On a response whose lines are a header block `H` without an empty or lone
`\r` line, a terminator `t` that is empty or `\r`, and a body `B`, `processData`
leaves the world exactly as `processCommands` does in the same mode on a file whose
lines are `B`: the same argument vectors, output lines and waits, in the same
order. -/
theorem processData_eq_processCommands (env : Env) (sp path : Str) (H : List Str) (t : Str)
    (B : List Str) (w : World) (hH : ∀ l ∈ H, l ≠ [] ∧ l ≠ "\r".toList)
    (ht : t = [] ∨ t = "\r".toList) (hB : env.readFile path = B) :
    processCommands env [sp, path] w = some (processData env sp (H ++ [t] ++ B) w) := by
  show some (drainChildList env
      (processCommandsLoop env sp (env.readFile path) w []).2
      (processCommandsLoop env sp (env.readFile path) w []).1) = _
  rw [processData, skipHeaders_append H t B hH ht, processDataLoop_eq, hB]

theorem processData_eq_processCommands_witness :
    processCommands ⟨fun k => k, fun _ => ["# c".toList, "ls -l".toList, "exit".toList]⟩
        ["PARALLEL".toList, "f".toList] World.start =
      some (processData ⟨fun k => k, fun _ => ["# c".toList, "ls -l".toList, "exit".toList]⟩
        "PARALLEL".toList
        (["HTTP/1.1 200 OK\r".toList, "Content-Type: text/plain\r".toList] ++ ["\r".toList] ++
          ["# c".toList, "ls -l".toList, "exit".toList]) World.start) :=
  processData_eq_processCommands _ _ _ _ _ _ _ (by decide) (by decide) rfl

/-! ## Batches in either mode -/

theorem processCommands_batch (env : Env) (mode path : Str) (more : StrVec) (w : World) :
    processCommands env (mode :: path :: more) w =
      some ⟨w.trace ++ batchEvents env mode w.spawned (commandLines (env.readFile path)),
        w.spawned + (commandLines (env.readFile path)).length⟩ := by
  show some (drainChildList env
      (processCommandsLoop env mode (env.readFile path) w []).2
      (processCommandsLoop env mode (env.readFile path) w []).1) = _
  by_cases hm : mode = "SERIAL".toList
  · rw [batchEvents, if_pos hm, hm, processCommandsLoop_serial, drainChildList_eq]
    simp [waitEvents]
  · rw [batchEvents, if_neg hm, processCommandsLoop_parallel env mode hm, drainChildList_eq]
    simp

theorem processData_batch (env : Env) (sp : Str) (is : List Str) (w : World) :
    processData env sp is w =
      ⟨w.trace ++ batchEvents env sp w.spawned (commandLines (skipHeaders is)),
        w.spawned + (commandLines (skipHeaders is)).length⟩ := by
  rw [processData, processDataLoop_eq]
  by_cases hm : sp = "SERIAL".toList
  · rw [batchEvents, if_pos hm, hm, processCommandsLoop_serial, drainChildList_eq]
    simp [waitEvents]
  · rw [batchEvents, if_neg hm, processCommandsLoop_parallel env sp hm, drainChildList_eq]
    simp

theorem batchEvents_of_ne_serial (env : Env) (mode : Str) (hm : mode ≠ "SERIAL".toList)
    (k : Nat) (cmds : List Str) :
    batchEvents env mode k cmds =
      startEvents cmds ++ waitEvents env (childrenFrom k cmds.length) := by
  rw [batchEvents, if_neg hm]

theorem batchEvents_serial (env : Env) (k : Nat) (cmds : List Str) :
    batchEvents env "SERIAL".toList k cmds = serialEvents env k cmds := by
  rw [batchEvents, if_pos rfl]

theorem connections_append (a b : List Event) :
    connections (a ++ b) = connections a ++ connections b := by
  simp [connections]

theorem sentBytes_append (a b : List Event) :
    sentBytes (a ++ b) = sentBytes a ++ sentBytes b := by
  simp [sentBytes]

theorem connections_serialEvents (env : Env) (cmds : List Str) :
    ∀ k, connections (serialEvents env k cmds) = [] := by
  induction cmds with
  | nil => intro k; rfl
  | cons l ls ih => intro k; have := ih (k + 1); simp_all [connections, serialEvents]

theorem sentBytes_serialEvents (env : Env) (cmds : List Str) :
    ∀ k, sentBytes (serialEvents env k cmds) = [] := by
  induction cmds with
  | nil => intro k; rfl
  | cons l ls ih => intro k; have := ih (k + 1); simp_all [sentBytes, serialEvents]

theorem connections_startEvents (cmds : List Str) : connections (startEvents cmds) = [] := by
  induction cmds with
  | nil => rfl
  | cons l ls ih => simp_all [connections, startEvents]

theorem sentBytes_startEvents (cmds : List Str) : sentBytes (startEvents cmds) = [] := by
  induction cmds with
  | nil => rfl
  | cons l ls ih => simp_all [sentBytes, startEvents]

theorem connections_waitEvents (env : Env) (cl : List ChildProcess) :
    connections (waitEvents env cl) = [] := by
  induction cl with
  | nil => rfl
  | cons a rest ih => simp_all [connections, waitEvents]

theorem sentBytes_waitEvents (env : Env) (cl : List ChildProcess) :
    sentBytes (waitEvents env cl) = [] := by
  induction cl with
  | nil => rfl
  | cons a rest ih => simp_all [sentBytes, waitEvents]

theorem connections_batchEvents (env : Env) (mode : Str) (k : Nat) (cmds : List Str) :
    connections (batchEvents env mode k cmds) = [] := by
  unfold batchEvents
  split
  · exact connections_serialEvents env cmds k
  · rw [connections_append, connections_startEvents, connections_waitEvents]; rfl

theorem sentBytes_batchEvents (env : Env) (mode : Str) (k : Nat) (cmds : List Str) :
    sentBytes (batchEvents env mode k cmds) = [] := by
  unfold batchEvents
  split
  · exact sentBytes_serialEvents env cmds k
  · rw [sentBytes_append, sentBytes_startEvents, sentBytes_waitEvents]; rfl

/-! ## The session driver -/

theorem findFrom_of_infix (pat : Str) (s : Str) :
    ∀ i, pat <:+: s → findFrom pat s i ≤ i + s.length := by
  induction s with
  | nil =>
    intro i h
    have hp : pat = [] := List.eq_nil_of_infix_nil h
    simp [findFrom, hp]
  | cons c cs ih =>
    intro i h
    by_cases hp : pat.isPrefixOf (c :: cs) = true
    · simp [findFrom, hp]
    · have hp2 : ¬ (pat <+: c :: cs) := fun hh => hp (List.isPrefixOf_iff_prefix.mpr hh)
      have hin : pat <:+: cs := by
        rcases List.infix_cons_iff.mp h with h1 | h1
        · exact absurd h1 hp2
        · exact h1
      have := ih (i + 1) hin
      simp only [findFrom, hp, Bool.false_eq_true, if_false, List.length_cons]
      omega

theorem find_ne_npos (s pat : Str) (h : pat <:+: s) (hlen : s.length < npos) :
    find s pat ≠ npos := by
  have := findFrom_of_infix pat s 0 h
  unfold find
  omega

theorem find_eq_npos (s pat : Str) (hpat : pat ≠ []) (h : ¬ (pat <:+: s)) :
    find s pat = npos :=
  findFrom_of_not_infix pat hpat s 0 h

theorem processURL_ok (env : Env) (net : Net) (sp url : Str) (more : StrVec) (w : World)
    (host port path : Str) (h : breakDownURL url = Except.ok (host, port, path)) :
    processURL env net (sp :: url :: more) w =
      Except.ok (processData env sp (net.response host port (httpRequest host path))
        ⟨w.trace ++ [Event.connect host port, Event.send (httpRequest host path)],
          w.spawned⟩) := by
  simp only [processURL, h]

theorem processURL_error (env : Env) (net : Net) (sp url : Str) (more : StrVec) (w : World)
    (e : Exception) (h : breakDownURL url = Except.error e) :
    processURL env net (sp :: url :: more) w = Except.error (Fault.uncaught e) := by
  simp only [processURL, h]

/-- The loop body on a line of at least two tokens, the tokenizer result put in. -/
theorem mainBody_of_tokens (env : Env) (net : Net) (line : Str) (w : World)
    (first second : Str) (more : StrVec) (hs : splitString line = first :: second :: more) :
    mainBody env net line w =
      match (if find second "http".toList ≠ npos
          then processURL env net (first :: second :: more) w else Except.ok w) with
      | Except.error f => Except.error f
      | Except.ok w1 =>
        if first = "SERIAL".toList ∨ first = "PARALLEL".toList then
          match processCommands env (first :: second :: more) w1 with
          | some w2 => Except.ok w2
          | none => Except.error Fault.out_of_bounds
        else
          Except.ok (printExitCode env (runCommands (first :: second :: more) w1).1
            (runCommands (first :: second :: more) w1).2) := by
  simp only [mainBody, hs]

/-- A line of at least two tokens whose first is no mode and whose second holds no
`http` is run as one direct command. -/
theorem mainBody_direct (env : Env) (net : Net) (line : Str) (w : World)
    (first second : Str) (more : StrVec) (hs : splitString line = first :: second :: more)
    (h1 : first ≠ "SERIAL".toList) (h2 : first ≠ "PARALLEL".toList)
    (hh : ¬ ("http".toList <:+: second)) :
    mainBody env net line w =
      Except.ok ⟨w.trace ++ [Event.running (splitString line),
          Event.forkNexec (splitString line), Event.wait ⟨w.spawned⟩,
          Event.exitCode (env.exitStatus w.spawned)], w.spawned + 1⟩ := by
  have hf : find second "http".toList = npos := find_eq_npos second _ (by decide) hh
  have hm : ¬ (first = "SERIAL".toList ∨ first = "PARALLEL".toList) := by
    rintro (h | h)
    · exact h1 h
    · exact h2 h
  rw [mainBody_of_tokens env net line w first second more hs, hs]
  simp only [hf, ne_eq, not_true_eq_false, if_false, hm]
  simp [runCommands, printExitCode]

/-- C11, the code at the failing input `ls`: the line is not `exit`, not empty, does
not start with `#` and has the single token `ls`; the driver indexes `argList[1]` on
the one-element vector, out of range, before anything is started, alone or as the
first line of any input. -/
theorem mainBody_single_token :
    "ls".toList ≠ "exit".toList ∧ ("ls".toList.isEmpty || "ls".toList.head? == some '#') = false ∧
      splitString "ls".toList = ["ls".toList] ∧
      ∀ (env : Env) (net : Net) (w : World) (rest : List Str),
        mainBody env net "ls".toList w = Except.error Fault.out_of_bounds ∧
        mainLoop env net ("ls".toList :: rest) w = Except.error Fault.out_of_bounds := by
  refine ⟨by decide, by decide, by decide, fun env net w rest => ⟨rfl, rfl⟩⟩

theorem foldl_runningText (argList : StrVec) :
    ∀ out : Str, argList.foldl (fun out a => out ++ " ".toList ++ a) out =
      out ++ (argList.map fun a => ' ' :: a).flatten := by
  induction argList with
  | nil => intro out; simp
  | cons a rest ih => intro out; rw [List.foldl_cons, ih]; simp

theorem intercalate_cons (sep a : Str) (rest : StrVec) :
    List.intercalate sep (a :: rest) = a ++ (rest.map fun b => sep ++ b).flatten := by
  induction rest generalizing a with
  | nil => simp [List.intercalate]
  | cons b bs ih =>
    have := ih b
    simp only [List.intercalate] at this ⊢
    simp [List.intersperse, this]

theorem runningText_eq (argv : StrVec) (h : argv ≠ []) :
    runningText argv = "Running: ".toList ++ List.intercalate " ".toList argv := by
  cases argv with
  | nil => exact absurd rfl h
  | cons a rest =>
    rw [runningText, foldl_runningText, intercalate_cons]
    simp

/-- C13. For a non-empty `argv`, `runCommands` writes the one line `Running: ` followed
by the elements of `argv` joined by single spaces, and then starts the child. For a
prompt line run as a direct command (at least two tokens, the first no mode, the
second without `http`) the driver's events are that line, the start, the wait and the
line `Exit code: n` with `n` the exit status of the child. -/
theorem runCommands_running_line (env : Env) (net : Net) (line : Str) (w : World)
    (first second : Str) (more : StrVec) (hs : splitString line = first :: second :: more)
    (h1 : first ≠ "SERIAL".toList) (h2 : first ≠ "PARALLEL".toList)
    (hh : ¬ ("http".toList <:+: second)) :
    (∀ (argv : StrVec) (w0 : World), argv ≠ [] →
      (runCommands argv w0).2.trace =
        w0.trace ++ [Event.running argv, Event.forkNexec argv] ∧
      outputLines [Event.running argv, Event.forkNexec argv] =
        ["Running: ".toList ++ List.intercalate " ".toList argv]) ∧
    mainBody env net line w =
      Except.ok ⟨w.trace ++ [Event.running (splitString line),
          Event.forkNexec (splitString line), Event.wait ⟨w.spawned⟩,
          Event.exitCode (env.exitStatus w.spawned)], w.spawned + 1⟩ ∧
    outputLines [Event.running (splitString line), Event.forkNexec (splitString line),
        Event.wait ⟨w.spawned⟩, Event.exitCode (env.exitStatus w.spawned)] =
      ["Running: ".toList ++ List.intercalate " ".toList (splitString line),
       "Exit code: ".toList ++ (toString (env.exitStatus w.spawned)).toList] := by
  refine ⟨fun argv w0 hne => ⟨rfl, ?_⟩, mainBody_direct env net line w first second more hs
    h1 h2 hh, ?_⟩
  · simp [outputLines, Event.text, runningText_eq argv hne]
  · have hne : splitString line ≠ [] := by rw [hs]; exact List.cons_ne_nil _ _
    simp [outputLines, Event.text, runningText_eq _ hne, exitCodeText]

theorem runCommands_running_line_witness :
    mainBody ⟨fun _ => 0, fun _ => []⟩ ⟨fun _ _ _ => []⟩ "echo hello".toList World.start =
      Except.ok ⟨[Event.running ["echo".toList, "hello".toList],
        Event.forkNexec ["echo".toList, "hello".toList], Event.wait ⟨0⟩,
        Event.exitCode 0], 1⟩ ∧
    outputLines [Event.running ["echo".toList, "hello".toList],
        Event.forkNexec ["echo".toList, "hello".toList], Event.wait ⟨0⟩, Event.exitCode 0] =
      ["Running: echo hello".toList, "Exit code: 0".toList] :=
  ⟨(runCommands_running_line ⟨fun _ => 0, fun _ => []⟩ ⟨fun _ _ _ => []⟩ "echo hello".toList
      World.start "echo".toList "hello".toList [] (by decide) (by decide) (by decide)
      (by decide)).2.1,
   by decide⟩

/-- C14. When `breakDownURL url` returns `(host, port, path)`, `processURL` on
`[mode, url]` opens one connection, to `(host, port)`, and writes to it exactly
`GET path HTTP/1.1\r\nHost: host\r\nConnection: Close\r\n\r\n`, the `Host` header
carrying the host without the port. -/
theorem processURL_request (env : Env) (net : Net) (mode url : Str) (w : World)
    (host port path : Str) (h : breakDownURL url = Except.ok (host, port, path)) :
    ∃ w1 : World, processURL env net [mode, url] w = Except.ok w1 ∧
      connections w1.trace = connections w.trace ++ [(host, port)] ∧
      sentBytes w1.trace = sentBytes w.trace ++
        ["GET ".toList ++ path ++ " HTTP/1.1\r\nHost: ".toList ++ host ++
          "\r\nConnection: Close\r\n\r\n".toList] := by
  refine ⟨_, processURL_ok env net mode url [] w host port path h, ?_, ?_⟩
  · rw [processData_batch]
    simp only [connections_append, connections_batchEvents, List.append_nil]
    rfl
  · rw [processData_batch]
    simp only [sentBytes_append, sentBytes_batchEvents, List.append_nil]
    simp [sentBytes, httpRequest]

theorem processURL_request_witness :
    ∃ w1 : World,
      processURL ⟨fun _ => 0, fun _ => []⟩ ⟨fun _ _ _ => ["\r".toList, "pwd".toList]⟩
        ["SERIAL".toList, "https://localhost:8080/~x/one.txt".toList] World.start =
          Except.ok w1 ∧
      connections w1.trace = connections World.start.trace ++
        [("localhost".toList, "8080".toList)] ∧
      sentBytes w1.trace = sentBytes World.start.trace ++
        ["GET ".toList ++ "/~x/one.txt".toList ++ " HTTP/1.1\r\nHost: ".toList ++
          "localhost".toList ++ "\r\nConnection: Close\r\n\r\n".toList] :=
  processURL_request _ _ _ _ _ _ _ _ (by rfl)

/-- C17, as the code has it. For a line of at least two tokens whose second token
contains `http` and is a URL that `breakDownURL` decomposes, the driver first runs
`processURL` (one connection, to the host and port of the URL) and then, from the
world that leaves, takes a branch of the mode test as well: for a first token
`SERIAL` or `PARALLEL` it runs `processCommands` with the URL as the file path,
otherwise it runs the whole line as one direct command. -/
theorem mainBody_url_then_mode (env : Env) (net : Net) (line : Str) (w : World)
    (first second : Str) (more : StrVec) (host port path : Str)
    (hs : splitString line = first :: second :: more)
    (hh : "http".toList <:+: second) (hlen : second.length < npos)
    (hb : breakDownURL second = Except.ok (host, port, path)) :
    ∃ w1 : World, processURL env net (splitString line) w = Except.ok w1 ∧
      connections w1.trace = connections w.trace ++ [(host, port)] ∧
      ((first = "SERIAL".toList ∨ first = "PARALLEL".toList) →
        ∃ w2 : World, processCommands env (splitString line) w1 = some w2 ∧
          w2.trace = w1.trace ++
            batchEvents env first w1.spawned (commandLines (env.readFile second)) ∧
          mainBody env net line w = Except.ok w2) ∧
      (¬ (first = "SERIAL".toList ∨ first = "PARALLEL".toList) →
        mainBody env net line w =
          Except.ok ⟨w1.trace ++ [Event.running (splitString line),
            Event.forkNexec (splitString line), Event.wait ⟨w1.spawned⟩,
            Event.exitCode (env.exitStatus w1.spawned)], w1.spawned + 1⟩) := by
  have hf : find second "http".toList ≠ npos := find_ne_npos second _ hh hlen
  have hurl := processURL_ok env net first second more w host port path hb
  refine ⟨_, by rw [hs]; exact hurl, ?_, ?_, ?_⟩
  · rw [processData_batch]
    simp only [connections_append, connections_batchEvents, List.append_nil]
    rfl
  · intro hm
    refine ⟨_, by rw [hs]; exact processCommands_batch env first second more _, rfl, ?_⟩
    rw [mainBody_of_tokens env net line w first second more hs, if_pos hf, hurl]
    simp only [hm, if_true, processCommands_batch]
  · intro hm
    rw [mainBody_of_tokens env net line w first second more hs, if_pos hf, hurl, hs]
    simp only [hm, if_false]
    simp [runCommands, printExitCode]

theorem mainBody_url_then_mode_witness :
    ∃ w1 : World,
      processURL ⟨fun _ => 0, fun _ => ["ls -l".toList]⟩
        ⟨fun _ _ _ => ["\r".toList, "pwd".toList]⟩
        (splitString "SERIAL http://h/x".toList) World.start = Except.ok w1 ∧
      connections w1.trace = connections World.start.trace ++ [("h".toList, "80".toList)] ∧
      (("SERIAL".toList = "SERIAL".toList ∨ "SERIAL".toList = "PARALLEL".toList) →
        ∃ w2 : World,
          processCommands ⟨fun _ => 0, fun _ => ["ls -l".toList]⟩
            (splitString "SERIAL http://h/x".toList) w1 = some w2 ∧
          w2.trace = w1.trace ++
            batchEvents ⟨fun _ => 0, fun _ => ["ls -l".toList]⟩ "SERIAL".toList w1.spawned
              (commandLines ["ls -l".toList]) ∧
          mainBody ⟨fun _ => 0, fun _ => ["ls -l".toList]⟩
            ⟨fun _ _ _ => ["\r".toList, "pwd".toList]⟩ "SERIAL http://h/x".toList
            World.start = Except.ok w2) ∧
      (¬ ("SERIAL".toList = "SERIAL".toList ∨ "SERIAL".toList = "PARALLEL".toList) →
        mainBody ⟨fun _ => 0, fun _ => ["ls -l".toList]⟩
            ⟨fun _ _ _ => ["\r".toList, "pwd".toList]⟩ "SERIAL http://h/x".toList
            World.start =
          Except.ok ⟨w1.trace ++ [Event.running (splitString "SERIAL http://h/x".toList),
            Event.forkNexec (splitString "SERIAL http://h/x".toList), Event.wait ⟨w1.spawned⟩,
            Event.exitCode 0], w1.spawned + 1⟩) :=
  mainBody_url_then_mode ⟨fun _ => 0, fun _ => ["ls -l".toList]⟩
    ⟨fun _ _ _ => ["\r".toList, "pwd".toList]⟩ "SERIAL http://h/x".toList World.start
    "SERIAL".toList "http://h/x".toList [] "h".toList "80".toList "/x".toList
    (by decide) (by decide) (by decide) (by rfl)

/-- C17, the claim as written fails: the line `SERIAL http://localhost:8080` has two
tokens, the second contains `http`, and the driver takes no branch of the mode test:
`breakDownURL` raises `std::out_of_range` inside `processURL`, nothing catches it and
`main` ends there. -/
theorem mainBody_url_exception :
    splitString "SERIAL http://localhost:8080".toList =
        ["SERIAL".toList, "http://localhost:8080".toList] ∧
      "http".toList <:+: "http://localhost:8080".toList ∧
      ∀ (env : Env) (net : Net) (w : World) (rest : List Str),
        mainBody env net "SERIAL http://localhost:8080".toList w =
          Except.error (Fault.uncaught Exception.out_of_range) ∧
        mainLoop env net ("SERIAL http://localhost:8080".toList :: rest) w =
          Except.error (Fault.uncaught Exception.out_of_range) := by
  refine ⟨by decide, by decide, fun env net w rest => ⟨rfl, rfl⟩⟩

/-- C20. The scheduling loops treat every mode string other than `SERIAL` as
`PARALLEL`: for `m ≠ "SERIAL"`, `processData` with mode `m` leaves the same world as
with mode `PARALLEL` on every response, and `processCommands` on an argument list
that starts with `m` gives what it gives with `PARALLEL` in its place. -/
theorem mode_other_than_serial (env : Env) (m : Str) (hm : m ≠ "SERIAL".toList)
    (is : List Str) (rest : StrVec) (w : World) :
    processData env m is w = processData env "PARALLEL".toList is w ∧
      processCommands env (m :: rest) w = processCommands env ("PARALLEL".toList :: rest) w := by
  have hp : "PARALLEL".toList ≠ "SERIAL".toList := by decide
  constructor
  · rw [processData_batch, processData_batch, batchEvents_of_ne_serial env m hm,
      batchEvents_of_ne_serial env _ hp]
  · cases rest with
    | nil => rfl
    | cons path more =>
      rw [processCommands_batch, processCommands_batch, batchEvents_of_ne_serial env m hm,
        batchEvents_of_ne_serial env _ hp]

theorem mode_other_than_serial_witness :
    processData ⟨fun k => k, fun _ => []⟩ "serial".toList
        ["\r".toList, "true".toList, "false".toList] World.start =
      ⟨[Event.running ["true".toList], Event.forkNexec ["true".toList],
        Event.running ["false".toList], Event.forkNexec ["false".toList],
        Event.wait ⟨0⟩, Event.exitCode 0, Event.wait ⟨1⟩, Event.exitCode 1], 2⟩ :=
  (mode_other_than_serial ⟨fun k => k, fun _ => []⟩ "serial".toList (by decide)
    ["\r".toList, "true".toList, "false".toList] [] World.start).1.trans (by decide)

/-- C15. On a started Child Process a second `wait()` returns the exit code the first
one returned, leaves the state as it is and asks the operating system for nothing:
the cached status is returned. -/
theorem wait_twice (os : Nat → Int) (s : Lifecycle) (r1 : WaitResult)
    (h : s.wait os = Except.ok r1) :
    r1.state.wait os = Except.ok ⟨r1.code, r1.state, []⟩ := by
  cases s with
  | notStarted => cases h
  | running handle =>
    simp only [Lifecycle.wait, Except.ok.injEq] at h
    subst h
    rfl
  | exited code =>
    simp only [Lifecycle.wait, Except.ok.injEq] at h
    subst h
    rfl

theorem wait_twice_witness :
    (Lifecycle.exited 3).wait (fun _ => 3) = Except.ok ⟨3, Lifecycle.exited 3, []⟩ :=
  wait_twice (fun _ => 3) (Lifecycle.running 7) ⟨3, Lifecycle.exited 3, [7]⟩ rfl

/-! ## The order of events within a batch -/

theorem inSerialOrder_serialEvents (env : Env) (cmds : List Str) :
    ∀ k, inSerialOrder (serialEvents env k cmds) = true := by
  induction cmds with
  | nil => intro k; rfl
  | cons l ls ih => intro k; simpa [serialEvents, inSerialOrder] using ih (k + 1)

theorem alternates_serialEvents (env : Env) (cmds : List Str) :
    ∀ k, alternates (printedLines (serialEvents env k cmds)) = true := by
  induction cmds with
  | nil => intro k; rfl
  | cons l ls ih =>
    intro k
    have := ih (k + 1)
    simp only [printedLines] at this
    simp [serialEvents, printedLines, List.filter_cons, alternates, this]

theorem all_isStart_startEvents (cmds : List Str) :
    (startEvents cmds).all Event.isStart = true := by
  induction cmds with
  | nil => rfl
  | cons l ls ih => simpa [startEvents, Event.isStart] using ih

theorem all_isCollect_waitEvents (env : Env) (cl : List ChildProcess) :
    (waitEvents env cl).all Event.isCollect = true := by
  induction cl with
  | nil => rfl
  | cons a rest ih => simpa [waitEvents, Event.isCollect] using ih

theorem printedLines_append (a b : List Event) :
    printedLines (a ++ b) = printedLines a ++ printedLines b := by
  simp [printedLines]

theorem printedLines_startEvents (cmds : List Str) :
    printedLines (startEvents cmds) = (cmds.map splitString).map Event.running := by
  induction cmds with
  | nil => rfl
  | cons l ls ih =>
    simp only [printedLines] at ih
    simp [startEvents, printedLines, List.filter_cons, ih]

theorem printedLines_waitEvents (env : Env) (cl : List ChildProcess) :
    printedLines (waitEvents env cl) =
      (cl.map fun a => env.exitStatus a.id).map Event.exitCode := by
  induction cl with
  | nil => rfl
  | cons a rest ih =>
    simp only [printedLines] at ih
    simp [waitEvents, printedLines, List.filter_cons, ih]

/-- In a mode other than `SERIAL`, from the start: what the loop leaves and what the
drain adds. -/
theorem parallel_split (env : Env) (cmds : List Str) :
    (startEvents cmds).all Event.isStart = true ∧
      (waitEvents env (childrenFrom 0 cmds.length)).all Event.isCollect = true ∧
      printedLines (startEvents cmds ++ waitEvents env (childrenFrom 0 cmds.length)) =
        (runningLines (startEvents cmds ++ waitEvents env (childrenFrom 0 cmds.length))).map
            Event.running ++
          (exitCodeLines (startEvents cmds ++
            waitEvents env (childrenFrom 0 cmds.length))).map Event.exitCode := by
  refine ⟨all_isStart_startEvents cmds, all_isCollect_waitEvents env _, ?_⟩
  rw [printedLines_append, printedLines_startEvents, printedLines_waitEvents,
    runningLines_append, runningLines_startEvents, runningLines_waitEvents,
    exitCodeLines_append, exitCodeLines_startEvents, exitCodeLines_waitEvents]
  simp

/-- C16. On any script and any response: in `SERIAL` mode the trace of
`processCommands` and of `processData` is a sequence of whole runs (`Running:` line,
start, wait, `Exit code:` line), each complete before the next child is started, so
the output lines alternate `Running:`, `Exit code:`. In `PARALLEL` mode the trace at
the end of the reading loop holds only `Running:` lines and starts, what follows holds
only waits and `Exit code:` lines, and all `Running:` lines precede all `Exit code:`
lines. -/
theorem trace_order (env : Env) (path : Str) (is : List Str) :
    (∃ wS : World, processCommands env ["SERIAL".toList, path] World.start = some wS ∧
      inSerialOrder wS.trace = true ∧ alternates (printedLines wS.trace) = true) ∧
    (inSerialOrder (processData env "SERIAL".toList is World.start).trace = true ∧
      alternates (printedLines (processData env "SERIAL".toList is World.start).trace) = true) ∧
    (∃ (wP : World) (post : List Event),
      processCommands env ["PARALLEL".toList, path] World.start = some wP ∧
      (processCommandsLoop env "PARALLEL".toList (env.readFile path) World.start []).1.trace.all
        Event.isStart = true ∧
      wP.trace =
        (processCommandsLoop env "PARALLEL".toList (env.readFile path) World.start []).1.trace ++
          post ∧
      post.all Event.isCollect = true ∧
      printedLines wP.trace = (runningLines wP.trace).map Event.running ++
        (exitCodeLines wP.trace).map Event.exitCode) ∧
    (∃ post : List Event,
      (processDataLoop env "PARALLEL".toList (skipHeaders is) World.start []).1.trace.all
        Event.isStart = true ∧
      (processData env "PARALLEL".toList is World.start).trace =
        (processDataLoop env "PARALLEL".toList (skipHeaders is) World.start []).1.trace ++
          post ∧
      post.all Event.isCollect = true ∧
      printedLines (processData env "PARALLEL".toList is World.start).trace =
        (runningLines (processData env "PARALLEL".toList is World.start).trace).map
            Event.running ++
          (exitCodeLines (processData env "PARALLEL".toList is World.start).trace).map
            Event.exitCode) := by
  have hp : "PARALLEL".toList ≠ "SERIAL".toList := by decide
  refine ⟨?_, ?_, ?_, ?_⟩
  · refine ⟨_, processCommands_serial env path World.start, ?_, ?_⟩
    · simpa [World.start] using inSerialOrder_serialEvents env _ 0
    · simpa [World.start] using alternates_serialEvents env _ 0
  · rw [processData_batch, batchEvents_serial]
    refine ⟨?_, ?_⟩
    · simpa [World.start] using inSerialOrder_serialEvents env _ 0
    · simpa [World.start] using alternates_serialEvents env _ 0
  · have h3 := parallel_split env (commandLines (env.readFile path))
    refine ⟨_, waitEvents env (childrenFrom 0 (commandLines (env.readFile path)).length),
      processCommands_parallel env _ path hp World.start, ?_, ?_, h3.2.1, ?_⟩
    · rw [processCommandsLoop_parallel env _ hp]
      simpa [World.start] using h3.1
    · rw [processCommandsLoop_parallel env _ hp]
      simp [World.start]
    · simpa [World.start] using h3.2.2
  · have h3 := parallel_split env (commandLines (skipHeaders is))
    refine ⟨waitEvents env (childrenFrom 0 (commandLines (skipHeaders is)).length), ?_, ?_,
      h3.2.1, ?_⟩
    · rw [processDataLoop_eq, processCommandsLoop_parallel env _ hp]
      simpa [World.start] using h3.1
    · rw [processData_batch, batchEvents_of_ne_serial env _ hp, processDataLoop_eq,
        processCommandsLoop_parallel env _ hp]
      simp [World.start]
    · rw [processData_batch, batchEvents_of_ne_serial env _ hp]
      simpa [World.start] using h3.2.2

/-! ## The path of a decomposed URL -/

theorem indexOf_split (c : Char) (l : Str) (h : c ∈ l) :
    l.drop (l.indexOf c) = c :: l.drop (l.indexOf c + 1) ∧ c ∉ l.take (l.indexOf c) := by
  induction l with
  | nil => simp at h
  | cons x xs ih =>
    by_cases hx : x = c
    · subst hx
      simp [List.indexOf_cons_self]
    · have hm : c ∈ xs := by
        rcases List.mem_cons.mp h with h1 | h1
        · exact absurd h1.symm hx
        · exact h1
      have := ih hm
      rw [List.indexOf_cons_ne xs hx]
      simp only [Nat.succ_eq_add_one, List.drop_succ_cons, List.take_succ_cons, List.mem_cons,
        not_or]
      exact ⟨this.1, fun hh => hx hh.symm, this.2⟩

theorem findChar_drop (s : Str) (c : Char) (pos : Nat) (h : c ∈ s.drop pos) :
    s.drop (findChar s c pos) = c :: s.drop (findChar s c pos + 1) ∧
      c ∉ (s.drop pos).take (findChar s c pos - pos) := by
  have hs := indexOf_split c (s.drop pos) h
  rw [findChar_of_mem s c pos h]
  have e : pos + List.indexOf c (List.drop pos s) - pos = List.indexOf c (List.drop pos s) := by
    omega
  rw [e]
  refine ⟨?_, hs.2⟩
  have h1 := hs.1
  rw [List.drop_drop, List.drop_drop] at h1
  rw [h1]
  congr 2

/-- C19. When `breakDownURL` returns a triple, the path is the URL from `pathStart`
to its end, `pathStart` being the index of the first `/` at or after `hostStart`: a
non-empty suffix of the URL that begins with `/`. The URL is one a `std::string` can
hold. -/
theorem breakDownURL_path (url host port path : Str) (hlen : url.length < npos)
    (h : breakDownURL url = Except.ok (host, port, path)) :
    hostStart url ≤ pathStart url ∧ pathStart url < url.length ∧
      '/' ∉ (url.drop (hostStart url)).take (pathStart url - hostStart url) ∧
      path = url.drop (pathStart url) ∧ path.head? = some '/' ∧ path ≠ [] ∧
      path <:+ url := by
  have hslash : '/' ∈ url.drop (hostStart url) := by
    by_contra hno
    rw [breakDownURL_error_of_no_slash url hlen hno] at h
    cases h
  have hp : pathStart url < url.length := findChar_lt_length url '/' _ hslash
  have hge : hostStart url ≤ pathStart url := findChar_ge url '/' _ hslash
  have hd := findChar_drop url '/' (hostStart url) hslash
  rw [breakDownURL_ok_of_slash url hslash] at h
  have hpath : path = url.drop (pathStart url) := by
    have h1 := (Prod.mk.inj (Prod.mk.inj (Except.ok.inj h)).2).2
    rw [← h1]
    exact List.take_of_length_le (by rw [List.length_drop]; omega)
  have hhead : url.drop (pathStart url) = '/' :: url.drop (pathStart url + 1) := hd.1
  refine ⟨hge, hp, hd.2, hpath, ?_, ?_, ?_⟩
  · rw [hpath, hhead]; rfl
  · rw [hpath, hhead]; exact List.cons_ne_nil _ _
  · rw [hpath]; exact List.drop_suffix _ _

theorem breakDownURL_path_witness :
    hostStart "ftp://files.example.edu/index.html".toList ≤
        pathStart "ftp://files.example.edu/index.html".toList ∧
      pathStart "ftp://files.example.edu/index.html".toList <
        "ftp://files.example.edu/index.html".toList.length ∧
      '/' ∉ ("ftp://files.example.edu/index.html".toList.drop
          (hostStart "ftp://files.example.edu/index.html".toList)).take
        (pathStart "ftp://files.example.edu/index.html".toList -
          hostStart "ftp://files.example.edu/index.html".toList) ∧
      "/index.html".toList = "ftp://files.example.edu/index.html".toList.drop
        (pathStart "ftp://files.example.edu/index.html".toList) ∧
      "/index.html".toList.head? = some '/' ∧ "/index.html".toList ≠ [] ∧
      "/index.html".toList <:+ "ftp://files.example.edu/index.html".toList :=
  breakDownURL_path "ftp://files.example.edu/index.html".toList "files.example.edu".toList
    "80".toList "/index.html".toList (by decide) (by rfl)

/-! ## Tokens that are dropped -/

theorem hasUnescapedQuote_esc (e : Char) (rest : Str) :
    hasUnescapedQuote ('\\' :: e :: rest) = hasUnescapedQuote rest := by
  simp [hasUnescapedQuote]

theorem hasUnescapedQuote_quote (cs : Str) : hasUnescapedQuote ('"' :: cs) = true := by
  have : ('"' : Char) ≠ '\\' := by decide
  cases cs <;> simp [hasUnescapedQuote, this]

theorem hasUnescapedQuote_plain (c : Char) (cs : Str) (hc : c ≠ '\\') (hq : c ≠ '"') :
    hasUnescapedQuote (c :: cs) = hasUnescapedQuote cs := by
  cases cs <;> simp [hasUnescapedQuote, hc, hq]

/-- The body of a quoted token fails to the end of input exactly when no unescaped
double quote is left to close it. -/
theorem readQuoted_eq_none_iff (cs : Str) :
    readQuoted cs = none ↔ hasUnescapedQuote cs = false := by
  induction cs using escape_induction with
  | hnil => simp [readQuoted, hasUnescapedQuote]
  | hlast => simp [readQuoted, hasUnescapedQuote]
  | hesc e r ih => rw [readQuoted_esc, hasUnescapedQuote_esc, Option.map_eq_none', ih]
  | hplain x xs hx ih =>
    by_cases hq : x = '"'
    · subst hq
      simp [readQuoted_quote, hasUnescapedQuote_quote]
    · rw [readQuoted_plain x xs hx hq, hasUnescapedQuote_plain x xs hx hq,
        Option.map_eq_none', ih]

theorem skipws_eq_nil_iff (l : Str) : skipws l = [] ↔ ∀ c ∈ l, isspace c = true := by
  simp [skipws, List.dropWhile_eq_nil_iff]

theorem extractQuoted_eq_none_iff (l : Str) :
    extractQuoted l = none ↔
      (skipws l = [] ∨ ∃ cs, skipws l = '"' :: cs ∧ readQuoted cs = none) := by
  unfold extractQuoted
  cases hs : skipws l with
  | nil => simp
  | cons c cs =>
    by_cases hc : c = '"'
    · subst hc
      simp
    · simp [hc]

theorem splitString_eq_nil_iff (l : Str) : splitString l = [] ↔ extractQuoted l = none := by
  rw [splitString_eq]
  cases extractQuoted l with
  | none => simp
  | some wr => simp

/-- The lines that give no token at all: `splitString l` is empty exactly when `l` is
all whitespace or its first character after whitespace is a double quote that no
unescaped double quote closes. -/
theorem splitString_eq_nil_iff_line (l : Str) :
    splitString l = [] ↔
      ((∀ c ∈ l, isspace c = true) ∨
        ∃ cs, skipws l = '"' :: cs ∧ hasUnescapedQuote cs = false) := by
  rw [splitString_eq_nil_iff, extractQuoted_eq_none_iff, skipws_eq_nil_iff]
  constructor
  · rintro (h | ⟨cs, h1, h2⟩)
    · exact Or.inl h
    · exact Or.inr ⟨cs, h1, (readQuoted_eq_none_iff cs).mp h2⟩
  · rintro (h | ⟨cs, h1, h2⟩)
    · exact Or.inl h
    · exact Or.inr ⟨cs, h1, (readQuoted_eq_none_iff cs).mpr h2⟩

/-- C12, the code at the failing input, a script whose one line is a single space:
the line is not empty and does not start with `#`, so neither loop skips it, its
token vector is empty, and `forkNexec` is called with the empty argument vector, by
`processCommands`, by `processData`, and from the prompt line `SERIAL f` when the
file `f` holds that line. -/
theorem spawned_vector_empty :
    (" ".toList.isEmpty || " ".toList.head? == some '#') = false ∧
      splitString " ".toList = [] ∧
      (processCommands ⟨fun _ => 0, fun _ => [" ".toList]⟩ ["SERIAL".toList, "f".toList]
        World.start).map (fun w => spawnedVectors w.trace) = some [[]] ∧
      spawnedVectors (processData ⟨fun _ => 0, fun _ => []⟩ "PARALLEL".toList
        ["\r".toList, " ".toList] World.start).trace = [[]] ∧
      mainBody ⟨fun _ => 0, fun _ => [" ".toList]⟩ ⟨fun _ _ _ => []⟩ "SERIAL f".toList
        World.start =
          Except.ok ⟨[Event.running [], Event.forkNexec [], Event.wait ⟨0⟩,
            Event.exitCode 0], 1⟩ := by
  refine ⟨by decide, by decide, by decide, by decide, by rfl⟩

/-! ## An unterminated quote at the end of a line -/

theorem takeWhile_append_of_stop {α : Type} (f : α → Bool) (a b : List α)
    (h : ∃ x ∈ a, f x = false) :
    (a ++ b).takeWhile f = a.takeWhile f ∧ (a ++ b).dropWhile f = a.dropWhile f ++ b := by
  induction a with
  | nil => obtain ⟨x, hx, -⟩ := h; simp at hx
  | cons y ys ih =>
    by_cases hy : f y = true
    · obtain ⟨x, hx, hfx⟩ := h
      have hx2 : x ∈ ys := by
        rcases List.mem_cons.mp hx with h1 | h1
        · subst h1; rw [hy] at hfx; cases hfx
        · exact h1
      have := ih ⟨x, hx2, hfx⟩
      simp [List.takeWhile_cons, List.dropWhile_cons, hy, this.1, this.2]
    · simp [List.takeWhile_cons, List.dropWhile_cons, hy]

theorem readQuoted_append (cs : Str) (q : Str) :
    ∀ w rest, readQuoted cs = some (w, rest) →
      readQuoted (cs ++ q) = some (w, rest ++ q) ∧ rest <:+ cs := by
  induction cs using escape_induction with
  | hnil => intro w rest h; simp [readQuoted] at h
  | hlast => intro w rest h; simp [readQuoted] at h
  | hesc e r ih =>
    intro w rest h
    rw [readQuoted_esc, Option.map_eq_some'] at h
    obtain ⟨⟨w1, r1⟩, h1, h2⟩ := h
    simp only [Prod.mk.injEq] at h2
    obtain ⟨rfl, rfl⟩ := h2
    have := ih w1 r1 h1
    refine ⟨?_, this.2.trans ((List.suffix_cons e r).trans (List.suffix_cons _ _))⟩
    show readQuoted ('\\' :: e :: (r ++ q)) = _
    rw [readQuoted_esc, this.1]
    rfl
  | hplain x xs hx ih =>
    intro w rest h
    by_cases hq : x = '"'
    · subst hq
      rw [readQuoted_quote] at h
      simp only [Option.some.injEq, Prod.mk.injEq] at h
      obtain ⟨rfl, rfl⟩ := h
      refine ⟨?_, List.suffix_cons _ _⟩
      show readQuoted ('"' :: (xs ++ q)) = _
      rw [readQuoted_quote]
    · rw [readQuoted_plain x xs hx hq, Option.map_eq_some'] at h
      obtain ⟨⟨w1, r1⟩, h1, h2⟩ := h
      simp only [Prod.mk.injEq] at h2
      obtain ⟨rfl, rfl⟩ := h2
      have := ih w1 r1 h1
      refine ⟨?_, this.2.trans (List.suffix_cons _ _)⟩
      show readQuoted (x :: (xs ++ q)) = _
      rw [readQuoted_plain x _ hx hq, this.1]
      rfl

theorem endsInSpace_suffix (p t : Str) (hp : endsInSpace p = true) (ht : t <:+ p) :
    endsInSpace t = true := by
  obtain ⟨pre, rfl⟩ := ht
  unfold endsInSpace at hp ⊢
  cases hl : t.getLast? with
  | none => rfl
  | some c =>
    rw [List.getLast?_append, hl] at hp
    simpa using hp

theorem endsInSpace_mem (p : Str) (hp : endsInSpace p = true) (hne : p ≠ []) :
    ∃ x ∈ p, isspace x = true := by
  unfold endsInSpace at hp
  cases hl : p.getLast? with
  | none => exact absurd (List.getLast?_eq_none_iff.mp hl) hne
  | some c =>
    rw [hl] at hp
    exact ⟨c, List.mem_of_getLast?_eq_some hl, hp⟩

/-- An extraction that succeeds on a line ending in whitespace is not affected by
what is appended to the line, and leaves a rest that ends in whitespace again. -/
theorem extractQuoted_append (p q w rest : Str) (hp : endsInSpace p = true)
    (h : extractQuoted p = some (w, rest)) :
    extractQuoted (p ++ q) = some (w, rest ++ q) ∧ endsInSpace rest = true := by
  unfold extractQuoted at h
  cases hs : skipws p with
  | nil => rw [hs] at h; cases h
  | cons c cs =>
    rw [hs] at h
    have hcs : isspace c = false := skipws_head_not_space hs
    have hsuf : (c :: cs) <:+ p := by rw [← hs]; exact List.dropWhile_suffix _
    have hend : endsInSpace (c :: cs) = true := endsInSpace_suffix p _ hp hsuf
    have hs2 : skipws (p ++ q) = c :: (cs ++ q) := by
      have hne : ∃ x ∈ p, isspace x = false := ⟨c, hsuf.subset (List.mem_cons_self _ _), hcs⟩
      have := (takeWhile_append_of_stop isspace p q hne).2
      simp only [skipws] at hs ⊢
      rw [this, hs]
      rfl
    by_cases hc : c = '"'
    · subst hc
      simp only [if_true] at h
      have := readQuoted_append cs q w rest h
      refine ⟨?_, endsInSpace_suffix p rest hp
        ((this.2.trans (List.suffix_cons _ _)).trans hsuf)⟩
      simp only [extractQuoted, hs2, if_true]
      exact this.1
    · simp only [hc, if_false, Option.some.injEq, Prod.mk.injEq] at h
      obtain ⟨rfl, rfl⟩ := h
      obtain ⟨x, hx, hxs⟩ := endsInSpace_mem (c :: cs) hend (List.cons_ne_nil _ _)
      have hstop : ∃ x ∈ c :: cs, (fun x => !isspace x) x = false := ⟨x, hx, by simp [hxs]⟩
      have := takeWhile_append_of_stop (fun x => !isspace x) (c :: cs) q hstop
      refine ⟨?_, endsInSpace_suffix p _ hp ((List.dropWhile_suffix _).trans hsuf)⟩
      rw [extractQuoted_unquoted hs2 hc]
      have e : c :: (cs ++ q) = (c :: cs) ++ q := rfl
      rw [e, this.1, this.2]

theorem splitString_append_open_aux (r : Str) (hr : readQuoted r = none) (n : Nat) :
    ∀ p : Str, tokensClosedWithin n p = true → endsInSpace p = true →
      splitString (p ++ '"' :: r) = splitString p := by
  induction n with
  | zero => intro p h; simp [tokensClosedWithin] at h
  | succ n ih =>
    intro p hc hp
    rw [tokensClosedWithin] at hc
    cases hx : extractQuoted p with
    | none =>
      rw [hx] at hc
      have hs : skipws p = [] := by simpa using hc
      have hall : ∀ a ∈ p, isspace a = true := (skipws_eq_nil_iff p).mp hs
      have hs2 : skipws (p ++ '"' :: r) = '"' :: r := by
        have hq : isspace '"' = false := by decide
        simp only [skipws]
        rw [List.dropWhile_append_of_pos hall]
        simp [List.dropWhile_cons, hq]
      have hx2 : extractQuoted (p ++ '"' :: r) = none := by
        simp only [extractQuoted, hs2, if_true]
        exact hr
      rw [splitString_eq, hx2, splitString_eq, hx]
    | some wr =>
      obtain ⟨w, rest⟩ := wr
      rw [hx] at hc
      have := extractQuoted_append p ('"' :: r) w rest hp hx
      rw [splitString_eq, this.1, splitString_eq p, hx]
      simp only
      rw [ih rest hc this.2]

theorem tokensClosedWithin_of_no_quote (n : Nat) :
    ∀ p : Str, p.length < n → '"' ∉ p → tokensClosedWithin n p = true := by
  induction n with
  | zero => intro p h; omega
  | succ n ih =>
    intro p hlen hq
    rw [tokensClosedWithin]
    cases hs : skipws p with
    | nil => simp [extractQuoted, hs]
    | cons c cs =>
      have hsub : ∀ x ∈ c :: cs, x ∈ p := fun x hx =>
        (List.dropWhile_sublist isspace).subset (by rw [skipws] at hs; rw [hs]; exact hx)
      have hc : c ≠ '"' := fun h => hq (h ▸ hsub c (List.mem_cons_self _ _))
      have hx := extractQuoted_unquoted hs hc
      have hl := extractQuoted_length hx
      rw [hx]
      simp only
      exact ih _ (by omega) (fun h => hq (hsub _ ((List.dropWhile_sublist _).subset h)))

/-- C18, as the code has it. `splitString` raises nothing on an unterminated quote and
drops the token: for a line `p` that is empty or ends in whitespace and in which no
quoted token is left open, and a string `r` without an unescaped double quote,
`splitString (p ++ "\"" ++ r) = splitString p`. A line without any double quote
leaves no quoted token open. -/
theorem splitString_unterminated (p r : Str) (hp : endsInSpace p = true)
    (hc : tokensClosed p = true) (hr : hasUnescapedQuote r = false) :
    splitString (p ++ "\"".toList ++ r) = splitString p ∧
      ∀ p0 : Str, '"' ∉ p0 → tokensClosed p0 = true := by
  constructor
  · have e : p ++ "\"".toList ++ r = p ++ '"' :: r := by simp
    rw [e]
    exact splitString_append_open_aux r ((readQuoted_eq_none_iff r).mpr hr) _ p hc hp
  · intro p0 h0
    exact tokensClosedWithin_of_no_quote _ p0 (Nat.lt_succ_self _) h0

theorem splitString_unterminated_witness :
    splitString "a \"b c".toList = ["a".toList] :=
  (splitString_unterminated "a ".toList "b c".toList (by decide) (by decide)
    (by decide)).1.trans (by decide)

/-- C18, the claim as written fails: the line `"a ` (an opening quote, `a`, a space)
ends in whitespace and `b` holds no double quote; alone the line gives no token, its
quote being left open, while with `"b` appended the quote is closed and the result is
the two tokens `a ` and `b`. -/
theorem splitString_unterminated_open_prefix :
    endsInSpace "\"a ".toList = true ∧ hasUnescapedQuote "b".toList = false ∧
      splitString "\"a ".toList = [] ∧
      splitString ("\"a ".toList ++ "\"".toList ++ "b".toList) = ["a ".toList, "b".toList] ∧
      splitString ("\"a ".toList ++ "\"".toList ++ "b".toList) ≠ splitString "\"a ".toList := by
  decide

end Homework2
